import Mathlib

/-!
Verification of the interpolation core of the Tracer-X KLEE symbolic
virtual machine (files under lib/Core: Dependency.cpp, ITree.cpp,
StoreFrame.cpp, TxWP.cpp) against its natural-language specification.

The development shallowly embeds the data structures and functions the
claims refer to.  Machine pointers (llvm::Value*, llvm::Instruction*,
uintptr_t ids, Array*) are modelled as natural numbers; KLEE reference
counted expressions (ref<Expr>) are modelled by an inductive expression
type; possibly-null references are modelled with Option.
-/

set_option autoImplicit false

namespace KleeTx

/-- Outcome type of KLEE solver validity queries (Solver::Validity). -/
inductive Validity where
  | vTrue
  | vFalse
  | vUnknown
deriving DecidableEq, Repr

/-- Shallow embedding of the KLEE expression algebra (ref<Expr>).  Only the
kinds the verified code paths construct or inspect are represented:
boolean and bitvector constants, free symbolic atoms (reads of an array),
conjunction, disjunction, equality, unsigned less-than, negation and
existential quantification over arrays.  Arrays are identified by number. -/
inductive KExpr where
  | boolConst (b : Bool)
  | intConst (n : Nat)
  | symE (id : Nat)
  | andE (l r : KExpr)
  | orE (l r : KExpr)
  | eqE (l r : KExpr)
  | ultE (l r : KExpr)
  | notE (e : KExpr)
  | existsE (vars : List Nat) (body : KExpr)
deriving DecidableEq, Repr

/-- The constant true expression, ConstantExpr::create(1, Expr::Bool). -/
def trueE : KExpr := KExpr.boolConst true

/-- The constant false expression, ConstantExpr::create(0, Expr::Bool). -/
def falseE : KExpr := KExpr.boolConst false

/-- Test for llvm::isa<ConstantExpr>(e). -/
def isConstantExpr : KExpr → Bool
  | KExpr.boolConst _ => true
  | KExpr.intConst _ => true
  | _ => false

/-- Test for e->isTrue() on expressions (true only on the constant 1). -/
def isTrueExpr (e : KExpr) : Bool := e = trueE

/-- Test for llvm::isa<ExistsExpr>(e). -/
def isExistsExpr : KExpr → Bool
  | KExpr.existsE _ _ => true
  | _ => false

/-- Constant reading, modelling llvm::dyn_cast<ConstantExpr> followed by
getZExtValue. -/
def asConstVal : KExpr → Option Nat
  | KExpr.boolConst b => some (if b then 1 else 0)
  | KExpr.intConst n => some n
  | _ => none

/-- Modelled from the spec: UltExpr::create of the KLEE expression algebra
(outside lib/Core) performs constant folding when both operands are
constants; otherwise it builds the comparison node. -/
def ultCreate (a b : KExpr) : KExpr :=
  match asConstVal a, asConstVal b with
  | some x, some y => KExpr.boolConst (x < y)
  | _, _ => KExpr.ultE a b

/-- Modelled from the spec: AndExpr::create of the KLEE expression algebra
(outside lib/Core) performs partial evaluation against boolean constant
operands; otherwise it builds the conjunction node. -/
def andCreate : KExpr → KExpr → KExpr
  | KExpr.boolConst true, r => r
  | KExpr.boolConst false, _ => KExpr.boolConst false
  | l, KExpr.boolConst true => l
  | _, KExpr.boolConst false => KExpr.boolConst false
  | l, r => KExpr.andE l r

/-- Modelled from the spec: NotExpr::create of the KLEE expression algebra
(outside lib/Core) folds boolean constants. -/
def notCreate : KExpr → KExpr
  | KExpr.boolConst b => KExpr.boolConst (!b)
  | e => KExpr.notE e

/-- Lookup in an association list, modelling std::map<K,V>::find. -/
def alistGet {V : Type} (m : List (Nat × V)) (k : Nat) : Option V :=
  (m.find? (fun p => p.1 = k)).map Prod.snd

/-- Update or insert in an association list, modelling assignment through
std::map<K,V>::operator[]. -/
def alistSet {V : Type} : List (Nat × V) → Nat → V → List (Nat × V)
  | [], k, v => [(k, v)]
  | (k0, v0) :: rest, k, v =>
    if k0 = k then (k0, v) :: rest else (k0, v0) :: alistSet rest k v

end KleeTx

namespace KleeTx.ITreeM

/-!
Model of the subsumption table and check of ITree.cpp.

A SubsumptionTableEntry (ITree.h) stores the program point (nodeId), the
interpolant (a nullable expression), singleton and composite store
snapshots keyed by allocation site (llvm::Value*, modelled as Nat), the
key vectors the constructor extracts from the snapshots, and the
existentially quantified arrays.
-/

/-- Subsumption table entry (class SubsumptionTableEntry of ITree.h). -/
structure STEntry where
  nodeId : Nat
  interpolant : Option KExpr
  singletonStore : List (Nat × KExpr)
  singletonStoreKeys : List Nat
  compositeStore : List (Nat × List KExpr)
  compositeStoreKeys : List Nat
  existentials : List Nat
deriving DecidableEq, Repr

/-- SubsumptionTableEntry::empty (ITree.h lines 367-370): the entry is empty
when the interpolant is null and both key vectors are empty. -/
def entryEmpty (e : STEntry) : Bool :=
  e.interpolant.isNone && e.singletonStoreKeys.isEmpty &&
    e.compositeStoreKeys.isEmpty

/-- The state data subsumed() reads: the current instruction
(reinterpret_cast<uintptr_t>(state.pc->inst)), the interpolation node id,
and the node's singleton/composite core expressions
(state.itreeNode->getLatestCoreExpressions() and
getCompositeCoreExpressions()). -/
structure StateData where
  pcInst : Nat
  nodeId : Nat
  stateSingleton : List (Nat × KExpr)
  stateComposite : List (Nat × List KExpr)
deriving DecidableEq, Repr

/-- Oracle for the three solver call sites of subsumed(): the standard
solver->evaluate call, the Z3 getValue satisfiability call, and the Z3
directComputeValidity call.  Each maps the query to the (success, result)
outcome observed from the call. -/
structure SolverOracle where
  evaluateOutcome : KExpr → Bool × Validity
  getValueOutcome : KExpr → Bool
  directOutcome : KExpr → Bool × Validity

/-- Environment of subsumed(): solver oracle plus the existential
simplification SubsumptionTableEntry::simplifyExistsExpr, returning the
simplified query together with the hasExistentialsOnly flag.  The theorems
below hold for every simplification function, in particular for the one
implemented in ITree.cpp. -/
structure SubsumedEnv where
  oracle : SolverOracle
  simplifyExists : KExpr → KExpr × Bool

/-- Observable result of one subsumed() call: its boolean return value,
whether a solver call was made (checkSolverCount incremented), whether
checkSolverFailureCount was incremented, and whether the path-condition
marking phase (markerMap traversal with includeInInterpolant) ran. -/
structure SubsumedRes where
  res : Bool
  solverCalled : Bool
  failInc : Bool
  marked : Bool
deriving DecidableEq, Repr

/-- First loop of subsumed() (ITree.cpp lines 1201-1217): conjoin an
equality for every singleton-store key; missing state value returns
not-subsumed early (modelled as none). -/
def singletonEqLoop (store : List (Nat × KExpr)) (stSing : List (Nat × KExpr)) :
    List Nat → Option KExpr → Option (Option KExpr)
  | [], acc => some acc
  | k :: ks, acc =>
    let lhs := (alistGet store k).getD falseE
    match alistGet stSing k with
    | none => none
    | some rhs =>
      singletonEqLoop store stSing ks
        (some (match acc with
          | none => KExpr.eqE lhs rhs
          | some a => KExpr.andE (KExpr.eqE lhs rhs) a))

/-- Inner disjunction loops of subsumed() (ITree.cpp lines 1233-1249):
disjoin equalities of every (entry value, state value) pair. -/
def compositeDisjuncts (lhsList rhsList : List KExpr) : Option KExpr :=
  lhsList.foldl
    (fun a lhs =>
      rhsList.foldl
        (fun b rhs =>
          some (match b with
            | none => KExpr.eqE lhs rhs
            | some x => KExpr.orE (KExpr.eqE lhs rhs) x))
        a)
    none

/-- Second loop of subsumed() (ITree.cpp lines 1219-1257): per composite
key, empty state vector returns not-subsumed early (none); otherwise the
disjunction is conjoined to the accumulated equality constraints. -/
def compositeEqLoop (store : List (Nat × List KExpr))
    (stComp : List (Nat × List KExpr)) :
    List Nat → Option KExpr → Option (Option KExpr)
  | [], acc => some acc
  | k :: ks, acc =>
    let lhsList := (alistGet store k).getD []
    let rhsList := (alistGet stComp k).getD []
    if rhsList.isEmpty then none
    else
      compositeEqLoop store stComp ks
        (match compositeDisjuncts lhsList rhsList with
          | none => acc
          | some d =>
            some (match acc with
              | none => d
              | some a => KExpr.andE d a))

/-- Query construction of subsumed() (ITree.cpp lines 1268-1280); none
models the both-empty case where everything gets subsumed. -/
def buildQuery : Option KExpr → Option KExpr → Option KExpr
  | some itp, some eqc => some (KExpr.andE itp eqc)
  | some itp, none => some (KExpr.andE itp trueE)
  | none, some eqc => some (KExpr.andE trueE eqc)
  | none, none => none

/-- Solver phase of subsumed() (ITree.cpp lines 1291-1417): constant
queries are decided directly; otherwise one of the three solver call
sites runs and the result is classified. -/
def solverPhase (env : SubsumedEnv) (existentialsNonEmpty : Bool)
    (query : KExpr) (noFree : Bool) : SubsumedRes :=
  if isConstantExpr query then
    { res := isTrueExpr query, solverCalled := false, failInc := false,
      marked := false }
  else
    let callRes : Bool × Validity :=
      if existentialsNonEmpty && isExistsExpr query then
        if noFree then
          let s := env.oracle.getValueOutcome query
          (s, if s then Validity.vTrue else Validity.vUnknown)
        else env.oracle.directOutcome query
      else env.oracle.evaluateOutcome query
    if callRes.1 = true ∧ callRes.2 = Validity.vTrue then
      { res := true, solverCalled := true, failInc := false, marked := true }
    else
      { res := false, solverCalled := true, failInc := true, marked := false }

/-- SubsumptionTableEntry::subsumed (ITree.cpp lines 1188-1417). -/
def subsumed (env : SubsumedEnv) (e : STEntry) (st : StateData) :
    SubsumedRes :=
  if entryEmpty e then
    { res := true, solverCalled := false, failInc := false, marked := false }
  else
    match singletonEqLoop e.singletonStore st.stateSingleton
        e.singletonStoreKeys none with
    | none =>
      { res := false, solverCalled := false, failInc := false, marked := false }
    | some acc1 =>
      match compositeEqLoop e.compositeStore st.stateComposite
          e.compositeStoreKeys acc1 with
      | none =>
        { res := false, solverCalled := false, failInc := false,
          marked := false }
      | some stateEq =>
        match buildQuery e.interpolant stateEq with
        | none =>
          { res := true, solverCalled := false, failInc := false,
            marked := false }
        | some query0 =>
          let qf : KExpr × Bool :=
            if e.existentials.isEmpty then (query0, false)
            else env.simplifyExists (KExpr.existsE e.existentials query0)
          solverPhase env (!e.existentials.isEmpty) qf.1 qf.2

/-- The subsumption table: std::map<uintptr_t, std::vector<
SubsumptionTableEntry*>> subsumptionTable of ITree. -/
abbrev TableT : Type := List (Nat × List STEntry)

/-- Reading subsumptionTable[k], with std::map default construction. -/
def mapGetVec (tbl : TableT) (k : Nat) : List STEntry :=
  (alistGet tbl k).getD []

/-- ITree::store (ITree.cpp lines 1614-1616): push the entry onto the
vector at its own nodeId. -/
def storeEntry (tbl : TableT) (e : STEntry) : TableT :=
  alistSet tbl e.nodeId (mapGetVec tbl e.nodeId ++ [e])

/-- Well-formedness of the table: every entry sits in the bucket of its
own program point (guaranteed because ITree::store keys by
subItem->nodeId). -/
def WellFormedTable (tbl : TableT) : Prop :=
  ∀ p ∈ tbl, ∀ e ∈ p.2, e.nodeId = p.1

/-- ITree::checkCurrentStateSubsumption (ITree.cpp lines 1574-1612),
returning the first table entry that subsumes the state, if any.  The
guard returns immediately when the state's current instruction is not the
interpolation node id; then the entry list at the node id is scanned. -/
def checkCurrentStateSubsumptionEntry (env : SubsumedEnv) (tbl : TableT)
    (st : StateData) : Option STEntry :=
  if st.pcInst ≠ st.nodeId then none
  else (mapGetVec tbl st.nodeId).find? (fun e => (subsumed env e st).res)

/-- Boolean result of ITree::checkCurrentStateSubsumption. -/
def checkCurrentStateSubsumption (env : SubsumedEnv) (tbl : TableT)
    (st : StateData) : Bool :=
  (checkCurrentStateSubsumptionEntry env tbl st).isSome

/-!
Model of ITree::remove (ITree.cpp lines 1626-1652) and of the isSubsumed
flag lifecycle of an ITreeNode.

ITree::remove is called on a leaf (the code asserts !node->left &&
!node->right).  It walks up the parent chain: at each step it tables an
entry built from the node unless the node is subsumed, deletes the node,
nulls the corresponding child pointer of the parent, and continues while
the parent's remaining child is also null.  Because only the nodes on
this chain are touched, the visited path is determined by, for each
ancestor, whether its other child was already null when the walk reached
it; removal is modelled on the leaf plus that ancestor list.
-/

/-- Data of an ITreeNode that the SubsumptionTableEntry constructor
(ITree.cpp lines 816-840) reads: the node id and the results of the
node's getInterpolant, getLatestInterpolantCoreExpressions,
getCompositeInterpolantCoreExpressions calls and the collected
replacement arrays. -/
structure RNode where
  nodeId : Nat
  isSubsumed : Bool
  interpolantData : Option KExpr
  singletonData : List (Nat × KExpr)
  compositeData : List (Nat × List KExpr)
  existentialsData : List Nat
deriving DecidableEq, Repr

/-- SubsumptionTableEntry::SubsumptionTableEntry(ITreeNode*) (ITree.cpp
lines 816-840): nodeId is the node's id; the key vectors enumerate the
snapshot map keys. -/
def mkTableEntry (n : RNode) : STEntry :=
  { nodeId := n.nodeId
    interpolant := n.interpolantData
    singletonStore := n.singletonData
    singletonStoreKeys := n.singletonData.map Prod.fst
    compositeStore := n.compositeData
    compositeStoreKeys := n.compositeData.map Prod.fst
    existentials := n.existentialsData }

/-- The do/while loop of ITree::remove acting on the table.  The ancestor
list pairs each parent with whether its other child pointer was already
null at the time the walk reaches it (the loop condition !node->left &&
!node->right after the deleted child is nulled). -/
def removeLoop : RNode → List (RNode × Bool) → TableT → TableT
  | n, [], tbl =>
    if n.isSubsumed then tbl else storeEntry tbl (mkTableEntry n)
  | n, (p, otherIsNull) :: rest, tbl =>
    let tbl1 := if n.isSubsumed then tbl else storeEntry tbl (mkTableEntry n)
    if otherIsNull then removeLoop p rest tbl1 else tbl1

/-- The nodes ITree::remove deletes: the leaf and the maximal chain of
ancestors whose children are all gone. -/
def removedNodes : RNode → List (RNode × Bool) → List RNode
  | n, [] => [n]
  | n, (p, otherIsNull) :: rest =>
    if otherIsNull then n :: removedNodes p rest else [n]

/-- The ancestor part of the deleted chain, without the starting leaf. -/
def removedAncestors : List (RNode × Bool) → List RNode
  | [] => []
  | (p, otherIsNull) :: rest =>
    if otherIsNull then removedNodes p rest else []

/-- All entries held in a table, across its buckets. -/
def tableEntries (tbl : TableT) : List STEntry :=
  (tbl.map Prod.snd).flatten

/-- Operations of ITree / ITreeNode that can run between the creation and
the removal of a node, viewed through their effect on that node's
isSubsumed flag.  The only write to isSubsumed in ITree.cpp outside the
constructor is currentINode->isSubsumed = true on subsumption-check
success (line 1602); every other method leaves the flag alone. -/
inductive ITOp where
  | checkSuccess
  | checkFail
  | setCurrent
  | addConstraintOp
  | splitOp
  | executeOp
deriving DecidableEq, Repr

/-- Effect of each operation on the node's isSubsumed flag, read off from
ITree.cpp: only subsumption-check success writes it, and it writes true. -/
def stepFlag (b : Bool) : ITOp → Bool
  | ITOp.checkSuccess => true
  | _ => b

end KleeTx.ITreeM

namespace KleeTx.DependencyM

/-!
Model of the versioned-value flow graph and core marking of
Dependency.cpp.

Versioned values are identified by their creation index into a list; the
sources map of a value (std::map<ref<VersionedValue>,
ref<MemoryLocation>>) is modelled by its key list, and the load/store
address fields by optional indices.  Dependency.cpp adds flow edges
(addDependency and its variants, setLoadAddress, setStoreAddress) only to
the value freshly created by the same handler invocation, so value
creation is modelled together with its edges; edges therefore always
point to strictly older values.  MemoryLocation::adjustOffsetBound
(called by markPointerFlow, source outside lib/Core) mutates only
per-location bound data, never a value's flags or edges, and is omitted.
-/

/-- A versioned value: flow sources (map keys), load and store address
values, the core flag and the canInterpolateBound flag. -/
structure VNode where
  sources : List Nat
  loadAddress : Option Nat
  storeAddress : Option Nat
  core : Bool
  canInterpolateBound : Bool
deriving DecidableEq, Repr

/-- The per-node value table, indexed by creation order. -/
abbrev DepState : Type := List VNode

/-- Dependency::directFlowSources (Dependency.cpp lines 601-625): the
sources map keys, then the load address if present, then the store
address if present and distinct from the load address. -/
def directFlowSources (nd : VNode) : List Nat :=
  nd.sources ++
    (match nd.loadAddress, nd.storeAddress with
      | some la, some sa => if sa ≠ la then [la, sa] else [la]
      | some la, none => [la]
      | none, some sa => [sa]
      | none, none => [])

/-- Replace the node at an index, leaving the list unchanged when the
index is out of range. -/
def modifyAt (s : DepState) (i : Nat) (f : VNode → VNode) : DepState :=
  match s.get? i with
  | none => s
  | some nd => s.set i (f nd)

/-- Dependency::markFlow (Dependency.cpp lines 627-641): return if the
target is null or is core with bound interpolation disabled; otherwise
set it as core, disable its bound interpolation, and recurse into its
direct flow sources.  The C++ recursion terminates because flow edges
point to strictly older values; fuel bounds the recursion depth and any
fuel larger than the target index is enough. -/
def markFlow : Nat → DepState → Option Nat → DepState
  | 0, s, _ => s
  | _ + 1, s, none => s
  | f + 1, s, some i =>
    match s.get? i with
    | none => s
    | some nd =>
      if nd.core ∧ ¬nd.canInterpolateBound then s
      else
        let s1 := modifyAt s i
          (fun m => { m with core := true, canInterpolateBound := false })
        (directFlowSources nd).foldl (fun acc j => markFlow f acc (some j)) s1

/-- Dependency::markPointerFlow (Dependency.cpp lines 643-675): adjust
offset bounds when bound interpolation is allowed (location-only effect,
omitted), set the target as core, recurse into the sources map keys, and
mark the load and store addresses with markFlow. -/
def markPointerFlow : Nat → DepState → Option Nat → DepState
  | 0, s, _ => s
  | _ + 1, s, none => s
  | f + 1, s, some i =>
    match s.get? i with
    | none => s
    | some nd =>
      let s1 := modifyAt s i (fun m => { m with core := true })
      let s2 := nd.sources.foldl (fun acc j => markPointerFlow f acc (some j)) s1
      let s3 := markFlow f s2 nd.loadAddress
      markFlow f s3 nd.storeAddress

/-- Events of Dependency.cpp observable on the flow graph: creation of a
fresh value together with its flow edges (Dependency::execute and the
addDependency family, which target only the value created by the same
handler invocation), and the two marking entry points
(Dependency::markAllValues and markAllPointerValues). -/
inductive DepOp where
  | newValue (srcs : List Nat) (la sa : Option Nat) (canBound : Bool)
  | markFlowOp (i : Nat)
  | markPointerFlowOp (i : Nat)
deriving DecidableEq, Repr

/-- Apply one event.  A fresh value is appended unmarked; its edges must
point to already existing (older) values, otherwise the event is
ignored. -/
def applyDepOp (s : DepState) : DepOp → DepState
  | DepOp.newValue srcs la sa canBound =>
    if (srcs.all (· < s.length)) && (la.all (· < s.length)) &&
        (sa.all (· < s.length)) then
      s ++ [{ sources := srcs, loadAddress := la, storeAddress := sa,
              core := false, canInterpolateBound := canBound }]
    else s
  | DepOp.markFlowOp i => markFlow s.length s (some i)
  | DepOp.markPointerFlowOp i => markPointerFlow s.length s (some i)

/-- Run a sequence of events from the empty value table. -/
def runDepOps (ops : List DepOp) : DepState :=
  ops.foldl applyDepOp []

/-- Whether the value at an index is marked core. -/
def coreAt (s : DepState) (i : Nat) : Bool :=
  match s.get? i with
  | some nd => nd.core
  | none => false

/-- One step of the direct-flow-sources relation: j is a direct flow
source of the value at i. -/
def flowEdge (s : DepState) (i j : Nat) : Bool :=
  match s.get? i with
  | some nd => (directFlowSources nd).contains j
  | none => false

/-- Reachability through the transitive closure of direct flow sources. -/
def FlowReach (s : DepState) (i j : Nat) : Prop :=
  Relation.ReflTransGen (fun a b => flowEdge s a b = true) i j

/-- The edge structure is well formed: all edges point to strictly older
values. -/
def EdgesWF (s : DepState) : Prop :=
  ∀ i nd, s.get? i = some nd → ∀ j ∈ directFlowSources nd, j < i

/-- Core marking is closed under direct flow sources. -/
def CoreClosed (s : DepState) : Prop :=
  ∀ i nd, s.get? i = some nd → nd.core = true →
    ∀ j ∈ directFlowSources nd, coreAt s j = true

/-- Core closure up to a set of indices whose closure obligation is still
pending (used while a marking call is in flight). -/
def CoreClosedExcept (s : DepState) (x : List Nat) : Prop :=
  ∀ i nd, s.get? i = some nd → nd.core = true →
    i ∈ x ∨ ∀ j ∈ directFlowSources nd, coreAt s j = true

/-- The edge structure of the node at an index: its sources and load and
store addresses.  Marking changes only the core and canInterpolateBound
flags, leaving this shape intact. -/
def shapeAt (s : DepState) (i : Nat) :
    Option (List Nat × Option Nat × Option Nat) :=
  (s.get? i).map (fun nd => (nd.sources, nd.loadAddress, nd.storeAddress))

end KleeTx.DependencyM

namespace KleeTx.StoreFrameM

/-!
Model of StoreFrame.cpp (the frame shape with a copy-on-write source
pointer).  Frames live in an explicit heap (a list indexed by frame
number) because updateStore mutates the frame the location resolves to
while other frames keep referring to it; parent and source fields hold
frame numbers.  MemoryLocation (source outside lib/Core) is modelled by
its call history, its global flag, its hasConstantAddress answer and an
identity for map keying.
-/

/-- A memory location as StoreFrame.cpp consumes it. -/
structure MLoc where
  callHistory : List Nat
  isGlobal : Bool
  hasConstantAddress : Bool
  locId : Nat
deriving DecidableEq, Repr

/-- A stored (address value, stored value) pair of versioned values;
either reference may be null. -/
abbrev VPair : Type := Option Nat × Option Nat

/-- Association list keyed by memory locations. -/
abbrev LocMap : Type := List (MLoc × VPair)

/-- Lookup modelling std::map<ref<MemoryLocation>, ...>::find. -/
def locGet (m : LocMap) (k : MLoc) : Option VPair :=
  (m.find? (fun p => p.1 = k)).map Prod.snd

/-- Update or insert modelling std::map operator[] assignment. -/
def locSet : LocMap → MLoc → VPair → LocMap
  | [], k, v => [(k, v)]
  | (k0, v0) :: rest, k, v =>
    if k0 = k then (k0, v) :: rest else (k0, v0) :: locSet rest k v

/-- One StoreFrame: parent and copy-on-write source frame numbers, the
callsite that created the frame (none for the global frame), the height
in the frame stack, and the two location maps. -/
structure FrameD where
  parent : Option Nat
  source : Option Nat
  callsite : Option Nat
  height : Nat
  concretelyAddressedStore : LocMap
  symbolicallyAddressedStore : LocMap
deriving DecidableEq, Repr

/-- The frame heap. -/
abbrev Heap : Type := List FrameD

/-- Frame dereference; none models a dangling frame pointer. -/
def frameAt (h : Heap) (i : Nat) : Option FrameD := h.get? i

/-- The parent walk of StoreFrame::findFrame: follow parent pointers for
the given number of steps (the loop from height down to the call-history
height). -/
def walkUp (h : Heap) : Nat → Nat → Option Nat
  | i, 0 => some i
  | i, steps + 1 =>
    match frameAt h i with
    | none => none
    | some fr =>
      match fr.parent with
      | none => none
      | some p => walkUp h p steps

/-- The frame indices the parent walk dereferences, including start and
end. -/
def walkUpVisited (h : Heap) : Nat → Nat → List Nat
  | i, 0 => [i]
  | i, steps + 1 =>
    match frameAt h i with
    | none => [i]
    | some fr =>
      match fr.parent with
      | none => [i]
      | some p => i :: walkUpVisited h p steps

/-- StoreFrame::findFrame (StoreFrame.cpp lines 19-41): fail when the
frame is lower than the location's call history; otherwise walk up to the
history height and check the topmost callsites match. -/
def findFrame (h : Heap) (start : Nat) (loc : MLoc) : Option Nat :=
  match frameAt h start with
  | none => none
  | some fr =>
    let historyHeight := loc.callHistory.length
    if fr.height < historyHeight then none
    else
      match walkUp h start (fr.height - historyHeight) with
      | none => none
      | some cur =>
        match frameAt h cur with
        | none => none
        | some curF =>
          let topMatch : Bool :=
            match loc.callHistory.getLast?, curF.callsite with
            | some a, some b => a == b
            | _, _ => false
          if curF.callsite = none ∧ loc.callHistory = [] then some cur
          else if topMatch then some cur
          else none

/-- Frame selection shared by updateStore and read: the frame itself for
global locations, findFrame otherwise. -/
def resolveFrame (h : Heap) (i : Nat) (loc : MLoc) : Option Nat :=
  if loc.isGlobal then some i else findFrame h i loc

/-- StoreFrame::updateStore (StoreFrame.cpp lines 76-102): resolve the
frame (assert on failure, modelled as none); on the first update of a
frame with a non-null source, copy both maps from the source and clear
the source; then write the pair into the map selected by
hasConstantAddress. -/
def updateStore (h : Heap) (i : Nat) (loc : MLoc) (address value : Option Nat) :
    Option Heap :=
  match resolveFrame h i loc with
  | none => none
  | some fi =>
    match frameAt h fi with
    | none => none
    | some fr =>
      match (match fr.source with
        | none => some fr
        | some si =>
          match frameAt h si with
          | none => none
          | some sf =>
            some { fr with
              concretelyAddressedStore := sf.concretelyAddressedStore,
              symbolicallyAddressedStore := sf.symbolicallyAddressedStore,
              source := none }) with
      | none => none
      | some fr1 =>
        some (h.set fi
          (if loc.hasConstantAddress then
            { fr1 with
                concretelyAddressedStore :=
                  locSet fr1.concretelyAddressedStore loc (address, value) }
          else
            { fr1 with
                symbolicallyAddressedStore :=
                  locSet fr1.symbolicallyAddressedStore loc (address, value) }))

/-- StoreFrame::read (StoreFrame.cpp lines 104-140): resolve the frame;
read through the source when it is still shared; absent keys return the
default-constructed (null, null) pair. -/
def readStore (h : Heap) (i : Nat) (loc : MLoc) : Option VPair :=
  match resolveFrame h i loc with
  | none => none
  | some fi =>
    match frameAt h fi with
    | none => none
    | some fr =>
      let deref : Nat → Option FrameD := fun s => frameAt h s
      match (match fr.source with
        | none => some fr
        | some si => deref si) with
      | none => none
      | some viewF =>
        if loc.hasConstantAddress then
          some ((locGet viewF.concretelyAddressedStore loc).getD (none, none))
        else
          some ((locGet viewF.symbolicallyAddressedStore loc).getD (none, none))

/-- The frame indices a read from frame i at the location dereferences:
the start frame, the parent walk, the resolved frame and its source. -/
def readTouched (h : Heap) (i : Nat) (loc : MLoc) : List Nat :=
  let base : List Nat :=
    if loc.isGlobal then [i]
    else
      match frameAt h i with
      | none => [i]
      | some fr =>
        i :: walkUpVisited h i (fr.height - loc.callHistory.length)
  match resolveFrame h i loc with
  | none => base
  | some fi =>
    base ++ [fi] ++
      (match frameAt h fi with
        | none => []
        | some fr =>
          match fr.source with
          | none => []
          | some si => [si])

end KleeTx.StoreFrameM

namespace KleeTx.LoadM

/-!
Model of the store lookup done by the Load case of Dependency::execute
(Dependency.cpp lines 1005-1040) over the per-node stores
concretelyAddressedStore and symbolicallyAddressedStore
(Dependency::updateStore routes by MemoryLocation::hasConstantAddress,
lines 445-454).
-/

open KleeTx.StoreFrameM

/-- Reading through std::map operator[]: return the mapped pair, default
constructing (and inserting) a (null, null) pair for an absent key. -/
def mapIndex (m : LocMap) (k : MLoc) : VPair × LocMap :=
  match locGet m k with
  | some v => (v, m)
  | none => ((none, none), locSet m k (none, none))

/-- The addressValuePair computation of the Load case (Dependency.cpp
lines 1010-1021), as written: locations with a constant address read
concretelyAddressedStore when present; locations without a constant
address that are present in symbolicallyAddressedStore read
concretelyAddressedStore[*li].  The returned stores reflect the
default insertion performed by operator[]. -/
def loadAddressValuePair (concr symb : LocMap) (li : MLoc) :
    VPair × LocMap × LocMap :=
  if li.hasConstantAddress then
    if 0 < (concr.countP (fun p => p.1 = li)) then
      let r := mapIndex concr li
      (r.1, r.2, symb)
    else ((none, none), concr, symb)
  else if 0 < (symb.countP (fun p => p.1 = li)) then
    let r := mapIndex concr li
    (r.1, r.2, symb)
  else ((none, none), concr, symb)

/-- Modelled from the spec: the intended lookup flagged in review, where
a location without a constant address present in the symbolically
addressed store reads the pair from symbolicallyAddressedStore[*li]. -/
def loadAddressValuePairIntended (concr symb : LocMap) (li : MLoc) :
    VPair × LocMap × LocMap :=
  if li.hasConstantAddress then
    if 0 < (concr.countP (fun p => p.1 = li)) then
      let r := mapIndex concr li
      (r.1, r.2, symb)
    else ((none, none), concr, symb)
  else if 0 < (symb.countP (fun p => p.1 = li)) then
    let r := mapIndex symb li
    (r.1, concr, r.2)
  else ((none, none), concr, symb)

/-- The decision taken after the lookup (Dependency.cpp lines 1030-1039):
with a null stored value the handler stores a fresh value (first-touch);
with a matching stored value it adds the via-location flow edge
(addDependencyViaLocation) and sets both addresses.  True means the
via-location edge is built from the pair. -/
def buildsViaLocationEdge (pair : VPair) (freshExprMatchesStored : Bool) :
    Bool :=
  match pair.2 with
  | none => false
  | some _ => freshExprMatchesStored

end KleeTx.LoadM

namespace KleeTx.BoundsM

/-!
Model of StoredValue::getBoundsCheck (Dependency.cpp lines 131-229,
compiled with ENABLE_Z3).  The entry's allocationBounds map and the state
value's allocationOffsets map are association lists from allocation sites
(llvm::Value*, modelled as Nat) to expression sets (modelled as lists in
iteration order).  The function returns the bounds-check expression
together with the bounds collected into the out-parameter; none models a
failure of the assert on empty tabled bounds.
-/

/-- Accumulator of the loops: the res expression under construction
(null at first) and the bounds out-parameter. -/
abbrev BAcc : Type := Option KExpr × List KExpr

/-- Conjoin one Ult constraint onto res (UltExpr::create and
AndExpr::create, which constant fold) and insert the bound into the
out-parameter set. -/
def addUlt (off bnd : KExpr) (acc : BAcc) : BAcc :=
  let u := ultCreate off bnd
  (some (match acc.1 with
    | none => u
    | some r => andCreate u r),
   if acc.2.contains bnd then acc.2 else acc.2 ++ [bnd])

/-- Body of the innermost loop for one (state offset, tabled bound) pair
(Dependency.cpp lines 175-216).  Sum.inl is the early return of the whole
function (constant false) together with the bounds collected so far. -/
def pairStep (off bnd : KExpr) (acc : BAcc) :
    Sum (KExpr × List KExpr) BAcc :=
  match asConstVal bnd with
  | some tb =>
    match asConstVal off with
    | some so =>
      if 0 < tb ∧ tb ≤ so then Sum.inl (falseE, acc.2)
      else if 0 < tb then Sum.inr (addUlt off bnd acc)
      else Sum.inr acc
    | none =>
      if 0 < tb then Sum.inr (addUlt off bnd acc)
      else Sum.inr acc
  | none => Sum.inr (addUlt off bnd acc)

/-- Loop over the tabled bounds for one state offset. -/
def boundLoop (off : KExpr) : List KExpr → BAcc →
    Sum (KExpr × List KExpr) BAcc
  | [], acc => Sum.inr acc
  | bnd :: rest, acc =>
    match pairStep off bnd acc with
    | Sum.inl e => Sum.inl e
    | Sum.inr acc1 => boundLoop off rest acc1

/-- Loop over the state offsets of one matched allocation site. -/
def offsetLoop (tb : List KExpr) : List KExpr → BAcc →
    Sum (KExpr × List KExpr) BAcc
  | [], acc => Sum.inr acc
  | off :: rest, acc =>
    match boundLoop off tb acc with
    | Sum.inl e => Sum.inl e
    | Sum.inr acc1 => offsetLoop tb rest acc1

/-- Outer loop over the entry's allocationBounds map (Dependency.cpp
lines 144-218): skip sites the state does not constrain; on a match,
assert the tabled bounds nonempty (none on failure), return constant
false on an empty state offset set, and otherwise run the nested
loops. -/
def siteLoop (stateOffsets : List (Nat × List KExpr)) :
    List (Nat × List KExpr) → Bool → BAcc →
    Option (Sum (KExpr × List KExpr) (Bool × BAcc))
  | [], matchFound, acc => some (Sum.inr (matchFound, acc))
  | (site, tb) :: rest, matchFound, acc =>
    match alistGet stateOffsets site with
    | none => siteLoop stateOffsets rest matchFound acc
    | some offs =>
      if tb.isEmpty then none
      else if offs.isEmpty then some (Sum.inl (falseE, acc.2))
      else
        match offsetLoop tb offs acc with
        | Sum.inl e => some (Sum.inl e)
        | Sum.inr acc1 => siteLoop stateOffsets rest true acc1

/-- StoredValue::getBoundsCheck (Dependency.cpp lines 131-229). -/
def getBoundsCheck (allocationBounds stateOffsets : List (Nat × List KExpr)) :
    Option (KExpr × List KExpr) :=
  match siteLoop stateOffsets allocationBounds false (none, []) with
  | none => none
  | some (Sum.inl ea) => some ea
  | some (Sum.inr (matchFound, acc)) =>
    match acc.1 with
    | none => some ((if matchFound then trueE else falseE), acc.2)
    | some r => some (r, acc.2)

/-- Whether some allocation site of the entry also occurs in the state
value's allocation-offsets map. -/
def anyMatchB (allocationBounds stateOffsets : List (Nat × List KExpr)) :
    Bool :=
  allocationBounds.any (fun p => (alistGet stateOffsets p.1).isSome)

/-- Whether every concrete state offset of every matched site is strictly
below every concrete non-zero tabled bound of that site. -/
def concreteOKB (allocationBounds stateOffsets : List (Nat × List KExpr)) :
    Bool :=
  allocationBounds.all (fun p =>
    match alistGet stateOffsets p.1 with
    | none => true
    | some offs =>
      offs.all (fun off =>
        p.2.all (fun bnd =>
          match asConstVal bnd, asConstVal off with
          | some tb, some so => !(decide (0 < tb ∧ tb ≤ so))
          | _, _ => true)))

/-- Whether no residual (non-constant) bound constraint is generated: on
every matched site every tabled bound is concrete and either zero or
compared only against concrete offsets. -/
def residualFreeB (allocationBounds stateOffsets : List (Nat × List KExpr)) :
    Bool :=
  allocationBounds.all (fun p =>
    match alistGet stateOffsets p.1 with
    | none => true
    | some offs =>
      p.2.all (fun bnd =>
        match asConstVal bnd with
        | some tb => tb == 0 || offs.all (fun off => (asConstVal off).isSome)
        | none => false))

/-- One (offset, bound) pair passes the concrete check (no early return
at Dependency.cpp line 192). -/
def pairOKB (off bnd : KExpr) : Bool :=
  match asConstVal bnd, asConstVal off with
  | some tb, some so => !(decide (0 < tb ∧ tb ≤ so))
  | _, _ => true

/-- One (offset, bound) pair generates a residual (non-constant)
constraint. -/
def pairResidualB (off bnd : KExpr) : Bool :=
  match asConstVal bnd with
  | some tb => !(tb == 0) && (asConstVal off).isNone
  | none => true

/-- The accumulated res expression is non-null and non-constant. -/
def accNonConstB (acc : BAcc) : Bool :=
  match acc.1 with
  | some r => !isConstantExpr r
  | none => false

/-- The accumulated res expression is null or the constant true. -/
def accTrueishB (acc : BAcc) : Bool :=
  match acc.1 with
  | none => true
  | some r => r == trueE

end KleeTx.BoundsM

namespace KleeTx.TxWPM

/-!
Model of the weakest-precondition push-up pass
TxWeakestPreCondition::PushUp and its helpers getPrevExpr and
getBrCondition (TxWP.cpp lines 2167-2300).  Recorded instructions are a
branch (carrying its condition value), a store (carrying its value and
pointer operands), or anything else; operands and condition values are
identified by number.  The condition and operand synthesis
(getCondition, generateExprFromOperand) and the helpers
TxExprHelper::simplifyNot, TxWPHelper::isTargetDependent and
TxWPHelper::substituteExpr (the latter three outside lib/Core) are
abstracted into an environment; all theorems hold for every
environment.
-/

/-- A recorded instruction as PushUp inspects it. -/
inductive TxInstr where
  | brI (condVal : Nat)
  | storeI (valOp ptrOp : Nat)
  | otherI
deriving DecidableEq, Repr

/-- Environment of the pass: condition synthesis for a branch condition
value, expression synthesis for an operand, and the three helper
functions. -/
structure WPEnv where
  getCondition : Nat → KExpr
  genExpr : Nat → KExpr
  simplifyNot : KExpr → KExpr
  isTargetDependent : Nat → KExpr → Bool
  substituteExpr : KExpr → KExpr → KExpr → KExpr

/-- TxWeakestPreCondition::getBrCondition (TxWP.cpp lines 2292-2300):
klee_error (modelled none) on a non-branch instruction, otherwise the
synthesised condition of br->getCondition(). -/
def getBrCondition (env : WPEnv) : TxInstr → Option KExpr
  | TxInstr.brI c => some (env.getCondition c)
  | _ => none

/-- TxWeakestPreCondition::getPrevExpr (TxWP.cpp lines 2245-2290): on a
store whose pointer operand is target-dependent in e, substitute the
synthesised pointer expression by the synthesised value expression;
otherwise leave e unchanged. -/
def getPrevExpr (env : WPEnv) (e : KExpr) : TxInstr → KExpr
  | TxInstr.storeI valOp ptrOp =>
    if !(env.isTargetDependent ptrOp e) then e
    else env.substituteExpr e (env.genExpr ptrOp) (env.genExpr valOp)
  | _ => e

/-- One iteration of the PushUp loop (TxWP.cpp lines 2183-2233) acting on
the WPExpr member; none propagates a klee_error abort. -/
def pushUpStep (env : WPEnv) (owp : Option KExpr) (p : TxInstr × Nat) :
    Option KExpr :=
  match owp with
  | none => none
  | some wp =>
    if p.2 = 1 then
      match getBrCondition env p.1 with
      | none => none
      | some c0 =>
        let cond := env.simplifyNot c0
        some (if trueE = wp then cond else andCreate wp cond)
    else if p.2 = 2 then
      match getBrCondition env p.1 with
      | none => none
      | some c0 =>
        let negCond := env.simplifyNot (notCreate c0)
        some (if trueE = wp then negCond else andCreate wp negCond)
    else
      match p.1 with
      | TxInstr.storeI v a => some (getPrevExpr env wp (TxInstr.storeI v a))
      | _ => some wp

/-- The PushUp loop: iterate the recorded list with a reverse iterator
(from the bottom of the basic block upwards). -/
def pushUpLoop (env : WPEnv) : List (TxInstr × Nat) → Option KExpr →
    Option KExpr
  | [], owp => owp
  | p :: rest, owp => pushUpLoop env rest (pushUpStep env owp p)

/-- TxWeakestPreCondition::PushUp (TxWP.cpp lines 2167-2243), starting
from the WPExpr member, which the constructor initialises to True()
(TxWP.cpp line 304). -/
def PushUp (env : WPEnv) (reverseInstructionList : List (TxInstr × Nat)) :
    Option KExpr :=
  pushUpLoop env reverseInstructionList.reverse (some trueE)

/-- One step of the push-up pass as the specification words it: a taken
branch conjoins the branch condition, a not-taken branch conjoins the
negated branch condition, a store whose address is target-dependent in WP
substitutes the stored value for the stored-to variable, and every other
instruction leaves WP unchanged. -/
def pushUpSpecStep (env : WPEnv) (wp : KExpr) (p : TxInstr × Nat) :
    Option KExpr :=
  if p.2 = 1 then
    (getBrCondition env p.1).map (fun c => andCreate wp (env.simplifyNot c))
  else if p.2 = 2 then
    (getBrCondition env p.1).map
      (fun c => andCreate wp (env.simplifyNot (notCreate c)))
  else
    match p.1 with
    | TxInstr.storeI v a =>
      if env.isTargetDependent a wp then
        some (env.substituteExpr wp (env.genExpr a) (env.genExpr v))
      else some wp
    | _ => some wp

/-- The push-up pass as the specification words it: starting from WP =
true, fold the per-instruction step over the recorded list from the
bottom of the basic block upwards. -/
def pushUpSpec (env : WPEnv) (reverseInstructionList : List (TxInstr × Nat)) :
    Option KExpr :=
  reverseInstructionList.reverse.foldl
    (fun owp p => owp.bind (fun wp => pushUpSpecStep env wp p)) (some trueE)

end KleeTx.TxWPM

/-! ## Theorems -/

namespace KleeTx

open ITreeM DependencyM StoreFrameM LoadM BoundsM TxWPM

/-- The create constructor absorbs a constant true left operand. -/
theorem andCreate_true_left (r : KExpr) : andCreate trueE r = r := by
  cases r with
  | boolConst b => cases b <;> rfl
  | intConst n => rfl
  | symE i => rfl
  | andE a b => rfl
  | orE a b => rfl
  | eqE a b => rfl
  | ultE a b => rfl
  | notE a => rfl
  | existsE v b => rfl

/-- The conditional of the PushUp loop computes andCreate with the
current WPExpr. -/
theorem if_true_andCreate (wp c : KExpr) :
    (if trueE = wp then c else andCreate wp c) = andCreate wp c := by
  by_cases hw : trueE = wp
  · rw [if_pos hw, ← hw, andCreate_true_left]
  · rw [if_neg hw]

/-- Membership extraction from alistGet. -/
theorem alistGet_mem {V : Type} (m : List (Nat × V)) (k : Nat) (v : V)
    (h : alistGet m k = some v) : (k, v) ∈ m := by
  induction m with
  | nil => simp [alistGet] at h
  | cons p rest ih =>
    obtain ⟨k0, v0⟩ := p
    by_cases hk : k0 = k
    · subst hk
      simp [alistGet, List.find?] at h
      subst h
      exact List.mem_cons_self _ _
    · have : alistGet rest k = some v := by
        simpa [alistGet, List.find?, hk] using h
      exact List.mem_cons_of_mem _ (ih this)

/-- Reading an association list past a key that differs. -/
theorem alistGet_cons_ne {V : Type} (k0 : Nat) (v0 : V)
    (rest : List (Nat × V)) (k : Nat) (h : k0 ≠ k) :
    alistGet ((k0, v0) :: rest) k = alistGet rest k := by
  simp [alistGet, List.find?, h]

/-- One loop step of PushUp agrees with the specification step. -/
theorem pushUpStep_eq_spec (env : WPEnv) (wp : KExpr) (p : TxInstr × Nat) :
    pushUpStep env (some wp) p = pushUpSpecStep env wp p := by
  obtain ⟨i, flag⟩ := p
  by_cases h1 : flag = 1
  · subst h1
    cases i <;>
      simp [pushUpStep, pushUpSpecStep, getBrCondition, if_true_andCreate]
  · by_cases h2 : flag = 2
    · subst h2
      cases i <;>
        simp [pushUpStep, pushUpSpecStep, getBrCondition, if_true_andCreate]
    · cases i with
      | brI c => simp [pushUpStep, pushUpSpecStep, h1, h2]
      | storeI v a =>
        simp only [pushUpStep, pushUpSpecStep, h1, if_neg, h2]
        by_cases hd : env.isTargetDependent a wp
        · simp [getPrevExpr, hd]
        · simp [getPrevExpr, hd]
      | otherI => simp [pushUpStep, pushUpSpecStep, h1, h2]

/-- The PushUp loop is the fold of the specification step. -/
theorem pushUpLoop_eq_foldl (env : WPEnv) (l : List (TxInstr × Nat))
    (owp : Option KExpr) :
    pushUpLoop env l owp =
      l.foldl (fun o p => o.bind (fun wp => pushUpSpecStep env wp p)) owp := by
  induction l generalizing owp with
  | nil => rfl
  | cons p rest ih =>
    have hstep : pushUpStep env owp p =
        owp.bind (fun wp => pushUpSpecStep env wp p) := by
      cases owp with
      | none => rfl
      | some wp => simpa using pushUpStep_eq_spec env wp p
    simp only [pushUpLoop, List.foldl, hstep, ih]

/-- C7: the weakest-precondition push-up pass, starting from WP = true and
iterating the recorded instruction list from the bottom of the basic
block upwards, conjoins the branch condition on taken branches, conjoins
the negated branch condition on not-taken branches, substitutes the
stored value for the stored-to variable on stores whose address is
target-dependent in WP, and leaves WP unchanged on all other
instructions. -/
theorem pushUp_matches_push_up_spec (env : WPEnv)
    (reverseInstructionList : List (TxInstr × Nat)) :
    PushUp env reverseInstructionList = pushUpSpec env reverseInstructionList :=
  pushUpLoop_eq_foldl env reverseInstructionList.reverse (some trueE)

/-- C2: a subsumption-table entry whose program point differs from the
state's current instruction id never subsumes the state: the check
consults only the bucket of the state's node id, every entry sits in the
bucket of its own program point, and a state whose current instruction is
not its node id is rejected outright. -/
theorem subsumption_check_program_point_guard (env : SubsumedEnv)
    (tbl : TableT) (st : StateData) (e : STEntry)
    (hwf : WellFormedTable tbl) (hne : e.nodeId ≠ st.pcInst) :
    checkCurrentStateSubsumptionEntry env tbl st ≠ some e := by
  unfold checkCurrentStateSubsumptionEntry
  by_cases hpc : st.pcInst = st.nodeId
  · rw [if_neg (by simpa using hpc)]
    intro hfind
    have hmem : e ∈ mapGetVec tbl st.nodeId := List.mem_of_find?_eq_some hfind
    unfold mapGetVec at hmem
    cases halist : alistGet tbl st.nodeId with
    | none => simp [halist] at hmem
    | some es =>
      have hintbl : (st.nodeId, es) ∈ tbl := alistGet_mem _ _ _ halist
      have heq : e.nodeId = st.nodeId := by
        have := hwf _ hintbl e (by simpa [halist] using hmem)
        simpa using this
      exact hne (by rw [heq, hpc])
  · rw [if_pos (by simpa using hpc)]
    simp

/-- Witness for C2 at a concrete table, state and entry. -/
theorem subsumption_check_program_point_guard_witness :
    checkCurrentStateSubsumptionEntry
      ⟨⟨fun _ => (false, Validity.vUnknown), fun _ => false,
        fun _ => (false, Validity.vUnknown)⟩, fun q => (q, false)⟩
      (storeEntry [] ⟨5, none, [], [], [], [], []⟩)
      ⟨7, 7, [], []⟩ ≠ some ⟨5, none, [], [], [], [], []⟩ :=
  subsumption_check_program_point_guard _ _ _ _
    (by unfold WellFormedTable; decide) (by decide)

/-- C3: an entry with a null interpolant and empty store snapshots is
empty, so subsumed returns true at the fast path: no solver call, no
failure count, no path-condition marking, for every state. -/
theorem empty_entry_subsumes_every_state (env : SubsumedEnv) (e : STEntry)
    (st : StateData) (h1 : e.interpolant = none) (h2 : e.singletonStore = [])
    (h3 : e.compositeStore = [])
    (h4 : e.singletonStoreKeys = e.singletonStore.map Prod.fst)
    (h5 : e.compositeStoreKeys = e.compositeStore.map Prod.fst) :
    subsumed env e st =
      { res := true, solverCalled := false, failInc := false,
        marked := false } := by
  have hk1 : e.singletonStoreKeys = [] := by rw [h4, h2]; rfl
  have hk2 : e.compositeStoreKeys = [] := by rw [h5, h3]; rfl
  unfold subsumed entryEmpty
  simp [h1, hk1, hk2]

/-- Witness for C3 at a concrete empty entry and a state with data. -/
theorem empty_entry_subsumes_every_state_witness :
    subsumed
      ⟨⟨fun _ => (false, Validity.vUnknown), fun _ => false,
        fun _ => (false, Validity.vUnknown)⟩, fun q => (q, false)⟩
      ⟨9, none, [], [], [], [], []⟩
      ⟨9, 9, [(0, KExpr.intConst 3)], [(1, [KExpr.intConst 4])]⟩ =
      { res := true, solverCalled := false, failInc := false,
        marked := false } :=
  empty_entry_subsumes_every_state _ _ _ rfl rfl rfl rfl rfl

end KleeTx

namespace KleeTx

open ITreeM

/-- The entry list after ITree::store is a permutation of the stored
entry consed onto the previous entry list (the entry lands in the bucket
of its own nodeId). -/
theorem tableEntries_storeEntry_perm (tbl : TableT) (e : STEntry) :
    List.Perm (tableEntries (storeEntry tbl e)) (e :: tableEntries tbl) := by
  unfold storeEntry
  induction tbl with
  | nil => simp [mapGetVec, alistGet, alistSet, tableEntries]
  | cons hd rest ih =>
    obtain ⟨k0, es0⟩ := hd
    by_cases hk : k0 = e.nodeId
    · have hget : mapGetVec ((k0, es0) :: rest) e.nodeId = es0 := by
        rw [← hk]
        simp [mapGetVec, alistGet, List.find?]
      rw [hget]
      simp only [alistSet, if_pos hk]
      simp only [tableEntries, List.map_cons, List.flatten_cons,
        List.append_assoc, List.singleton_append]
      exact List.perm_middle
    · have hget : mapGetVec ((k0, es0) :: rest) e.nodeId =
          mapGetVec rest e.nodeId := by
        simp [mapGetVec, alistGet_cons_ne k0 es0 rest e.nodeId hk]
      rw [hget]
      simp only [alistSet, if_neg hk]
      simp only [tableEntries, List.map_cons, List.flatten_cons]
      have h1 := List.Perm.append_left es0 ih
      have h2 := h1.trans List.perm_middle
      simpa [tableEntries] using h2

/-- Counting entries after ITree::store: exactly one copy of the stored
entry is added. -/
theorem tableEntries_storeEntry_count (tbl : TableT) (e x : STEntry) :
    (tableEntries (storeEntry tbl e)).count x =
      (tableEntries tbl).count x + (if e = x then 1 else 0) := by
  rw [(tableEntries_storeEntry_perm tbl e).count_eq x, List.count_cons]
  simp

/-- C5: the nodes deleted by one ITree::remove call are the leaf and the
chain of ancestors whose children are all gone, and the entries the call
inserts into the subsumption table are exactly one entry per deleted node
whose isSubsumed flag is false; subsumed nodes produce none. -/
theorem remove_tables_exactly_nonsubsumed (n : RNode)
    (anc : List (RNode × Bool)) (tbl : TableT) (x : STEntry) :
    (tableEntries (removeLoop n anc tbl)).count x =
      (tableEntries tbl).count x +
        (((removedNodes n anc).filter (fun nd => !nd.isSubsumed)).map
          mkTableEntry).count x := by
  induction anc generalizing n tbl with
  | nil =>
    by_cases hs : n.isSubsumed
    · simp [removeLoop, removedNodes, hs]
    · simp [removeLoop, removedNodes, hs, tableEntries_storeEntry_count,
        List.count_cons]
  | cons pb rest ih =>
    obtain ⟨p, o⟩ := pb
    cases o with
    | true =>
      by_cases hs : n.isSubsumed
      · simp only [removeLoop, removedNodes, hs, if_true, ite_true]
        rw [ih p tbl]
        simp [hs]
      · simp only [removeLoop, removedNodes, hs, if_true, ite_true,
          Bool.false_eq_true, ite_false]
        rw [ih p (storeEntry tbl (mkTableEntry n)),
          tableEntries_storeEntry_count]
        simp only [List.filter_cons, hs, Bool.not_false, if_true, ite_true,
          List.map_cons]
        rw [List.count_cons]
        simp only [beq_iff_eq]
        omega
    | false =>
      by_cases hs : n.isSubsumed
      · simp [removeLoop, removedNodes, hs]
      · simp [removeLoop, removedNodes, hs, tableEntries_storeEntry_count,
          List.count_cons]

/-- C9: subsumption-check success sets the current node's isSubsumed flag,
no operation of ITree.cpp ever clears it, and the removal of a subsumed
node inserts no table entry built from that node: the entries produced by
removing it come only from its removed ancestors. -/
theorem subsumed_flag_sticky_no_entry (ops : List ITOp) (b : Bool)
    (n : RNode) (anc : List (RNode × Bool)) :
    stepFlag b ITOp.checkSuccess = true ∧
    List.foldl stepFlag true ops = true ∧
    (n.isSubsumed = true →
      ((removedNodes n anc).filter (fun nd => !nd.isSubsumed)).map
          mkTableEntry =
        ((removedAncestors anc).filter (fun nd => !nd.isSubsumed)).map
          mkTableEntry) := by
  refine ⟨rfl, ?_, ?_⟩
  · have hstep : ∀ op, stepFlag true op = true := by
      intro op; cases op <;> rfl
    induction ops with
    | nil => rfl
    | cons op rest ihops => rw [List.foldl_cons, hstep op]; exact ihops
  · intro hs
    cases anc with
    | nil => simp [removedNodes, removedAncestors, hs]
    | cons pb rest =>
      obtain ⟨p, o⟩ := pb
      by_cases ho : o
      · subst ho
        simp [removedNodes, removedAncestors, hs]
      · have ho' : o = false := by simpa using ho
        subst ho'
        simp [removedNodes, removedAncestors, hs]

/-- Witness for C9 at a concrete operation list, flag and chain. -/
theorem subsumed_flag_sticky_no_entry_witness :
    stepFlag false ITOp.checkSuccess = true ∧
    List.foldl stepFlag true [ITOp.executeOp, ITOp.splitOp] = true ∧
    ((removedNodes ⟨3, true, none, [], [], []⟩
        [(⟨4, false, none, [], [], []⟩, true)]).filter
      (fun nd => !nd.isSubsumed)).map mkTableEntry =
      ((removedAncestors [(⟨4, false, none, [], [], []⟩, true)]).filter
        (fun nd => !nd.isSubsumed)).map mkTableEntry := by
  have h := subsumed_flag_sticky_no_entry [ITOp.executeOp, ITOp.splitOp]
    false ⟨3, true, none, [], [], []⟩ [(⟨4, false, none, [], [], []⟩, true)]
  exact ⟨h.1, h.2.1, h.2.2 rfl⟩

end KleeTx

namespace KleeTx

open LoadM StoreFrameM

/-- C1 (bug demonstration): for a location without a constant address that
is present only in the symbolically-addressed store, the Load handler of
Dependency::execute reads the (address, value) pair from
concretelyAddressedStore (Dependency.cpp line 1020), obtaining the
default-constructed null pair, so no via-location flow edge is built;
the intended lookup reads the pair held in the symbolically-addressed
store and builds the edge. -/
theorem load_reads_wrong_store_for_symbolic_location :
    (loadAddressValuePair [] [(⟨[], false, false, 0⟩, (some 1, some 2))]
      ⟨[], false, false, 0⟩).1 = (none, none) ∧
    (loadAddressValuePairIntended []
      [(⟨[], false, false, 0⟩, (some 1, some 2))]
      ⟨[], false, false, 0⟩).1 = (some 1, some 2) ∧
    buildsViaLocationEdge (none, none) true = false ∧
    buildsViaLocationEdge (some 1, some 2) true = true := by
  decide

end KleeTx

namespace KleeTx

open ITreeM

/-- When no solver call site can report validity, the solver phase of
subsumed() that actually calls the solver fails the check, counts the
failure and performs no marking. -/
theorem solverPhase_failure (env : SubsumedEnv) (ne : Bool) (q : KExpr)
    (nf : Bool)
    (hev : ∀ x, ¬((env.oracle.evaluateOutcome x).1 = true ∧
      (env.oracle.evaluateOutcome x).2 = Validity.vTrue))
    (hgv : ∀ x, env.oracle.getValueOutcome x = false)
    (hdr : ∀ x, ¬((env.oracle.directOutcome x).1 = true ∧
      (env.oracle.directOutcome x).2 = Validity.vTrue))
    (h : (solverPhase env ne q nf).solverCalled = true) :
    solverPhase env ne q nf =
      { res := false, solverCalled := true, failInc := true,
        marked := false } := by
  unfold solverPhase at h ⊢
  by_cases hc : isConstantExpr q
  · simp [hc] at h
  · rw [if_neg hc] at h ⊢
    by_cases he : (ne && isExistsExpr q) = true
    · by_cases hn : nf = true
      · simp only [he, if_true, hn, ite_true, hgv q]
        simp
      · simp only [he, if_true, hn, ite_false, Bool.false_eq_true]
        rw [if_neg (hdr q)]
    · simp only [he, Bool.false_eq_true, if_false, ite_false]
      rw [if_neg (hev q)]

/-- C4: whenever the solver call made during a subsumption check does not
establish validity (it fails, getValue fails, or validity comes back
unknown or invalid), subsumed returns false, the solver-failure counter
is incremented, and no path-condition marking is performed. -/
theorem subsumed_solver_failure_not_subsumed (env : SubsumedEnv)
    (e : STEntry) (st : StateData)
    (hev : ∀ x, ¬((env.oracle.evaluateOutcome x).1 = true ∧
      (env.oracle.evaluateOutcome x).2 = Validity.vTrue))
    (hgv : ∀ x, env.oracle.getValueOutcome x = false)
    (hdr : ∀ x, ¬((env.oracle.directOutcome x).1 = true ∧
      (env.oracle.directOutcome x).2 = Validity.vTrue))
    (h : (subsumed env e st).solverCalled = true) :
    (subsumed env e st).res = false ∧ (subsumed env e st).failInc = true ∧
      (subsumed env e st).marked = false := by
  unfold subsumed at h ⊢
  by_cases hemp : entryEmpty e = true
  · simp [hemp] at h
  · rw [if_neg hemp] at h ⊢
    cases hsg : singletonEqLoop e.singletonStore st.stateSingleton
        e.singletonStoreKeys none with
    | none => rw [hsg] at h; simp at h
    | some acc1 =>
      rw [hsg] at h
      dsimp only at h ⊢
      cases hcp : compositeEqLoop e.compositeStore st.stateComposite
          e.compositeStoreKeys acc1 with
      | none => rw [hcp] at h; simp at h
      | some stateEq =>
        rw [hcp] at h
        dsimp only at h ⊢
        cases hq : buildQuery e.interpolant stateEq with
        | none => rw [hq] at h; simp at h
        | some query0 =>
          rw [hq] at h
          dsimp only at h ⊢
          have hfail := solverPhase_failure env _ _ _ hev hgv hdr h
          rw [hfail]
          exact ⟨rfl, rfl, rfl⟩

/-- Witness for C4: a concrete entry with a symbolic interpolant on a
state whose solver always answers unknown. -/
theorem subsumed_solver_failure_not_subsumed_witness :
    ((subsumed
      ⟨⟨fun _ => (true, Validity.vUnknown), fun _ => false,
        fun _ => (false, Validity.vUnknown)⟩, fun q => (q, false)⟩
      ⟨5, some (KExpr.symE 0), [], [], [], [], []⟩
      ⟨5, 5, [], []⟩).res = false ∧
    (subsumed
      ⟨⟨fun _ => (true, Validity.vUnknown), fun _ => false,
        fun _ => (false, Validity.vUnknown)⟩, fun q => (q, false)⟩
      ⟨5, some (KExpr.symE 0), [], [], [], [], []⟩
      ⟨5, 5, [], []⟩).failInc = true ∧
    (subsumed
      ⟨⟨fun _ => (true, Validity.vUnknown), fun _ => false,
        fun _ => (false, Validity.vUnknown)⟩, fun q => (q, false)⟩
      ⟨5, some (KExpr.symE 0), [], [], [], [], []⟩
      ⟨5, 5, [], []⟩).marked = false) :=
  subsumed_solver_failure_not_subsumed _ _ _
    (by intro x hx; exact absurd hx.2 (by simp))
    (fun _ => rfl)
    (by intro x hx; exact absurd hx.1 (by simp))
    (by decide)

end KleeTx

namespace KleeTx

open StoreFrameM

/-- Frames other than the written one are untouched by List.set. -/
theorem frameAt_set_ne (h : Heap) (c : Nat) (x : FrameD) (i : Nat)
    (hne : c ≠ i) : frameAt (h.set c x) i = frameAt h i :=
  List.get?_set_ne x h hne

/-- The walk start belongs to its visited list. -/
theorem mem_walkUpVisited_self (h : Heap) (steps i : Nat) :
    i ∈ walkUpVisited h i steps := by
  cases steps with
  | zero => simp [walkUpVisited]
  | succ n =>
    unfold walkUpVisited
    cases hf : frameAt h i with
    | none => simp
    | some fr =>
      dsimp only
      cases hpar : fr.parent with
      | none => simp
      | some p => simp

/-- The parent walk is unchanged by writing a frame off the visited
path. -/
theorem walkUp_set (h : Heap) (c : Nat) (x : FrameD) :
    ∀ steps i, c ∉ walkUpVisited h i steps →
      walkUp (h.set c x) i steps = walkUp h i steps := by
  intro steps
  induction steps with
  | zero => intro i _; rfl
  | succ n ih =>
    intro i hmem
    have hci : c ≠ i := by
      intro hc
      exact hmem (hc ▸ mem_walkUpVisited_self h (n + 1) i)
    cases hf : frameAt h i with
    | none => simp [walkUp, frameAt_set_ne h c x i hci, hf]
    | some fr =>
      cases hpar : fr.parent with
      | none => simp [walkUp, frameAt_set_ne h c x i hci, hf, hpar]
      | some p =>
        have htail : c ∉ walkUpVisited h p n := by
          intro hcp
          apply hmem
          unfold walkUpVisited
          rw [hf]
          dsimp only
          rw [hpar]
          exact List.mem_cons_of_mem _ hcp
        simp [walkUp, frameAt_set_ne h c x i hci, hf, hpar, ih p htail]

/-- The parent walk lands on a visited frame. -/
theorem walkUp_mem (h : Heap) :
    ∀ steps i r, walkUp h i steps = some r → r ∈ walkUpVisited h i steps := by
  intro steps
  induction steps with
  | zero =>
    intro i r hr
    simp [walkUp] at hr
    simp [walkUpVisited, hr]
  | succ n ih =>
    intro i r hr
    unfold walkUp at hr
    unfold walkUpVisited
    cases hf : frameAt h i with
    | none => rw [hf] at hr; exact absurd hr (by simp)
    | some fr =>
      rw [hf] at hr
      dsimp only at hr
      dsimp only
      cases hpar : fr.parent with
      | none =>
        rw [hpar] at hr
        exact absurd hr (by simp)
      | some p =>
        rw [hpar] at hr
        dsimp only at hr ⊢
        exact List.mem_cons_of_mem _ (ih p r hr)

/-- Every element of the pre-resolution touched frames is in the touched
list. -/
theorem mem_readTouched_base (h : Heap) (i : Nat) (loc : MLoc) (y : Nat)
    (hy : y ∈ (if loc.isGlobal then [i]
      else match frameAt h i with
        | none => [i]
        | some fr => i :: walkUpVisited h i (fr.height - loc.callHistory.length))) :
    y ∈ readTouched h i loc := by
  unfold readTouched
  cases hrf : resolveFrame h i loc with
  | none => simpa using hy
  | some fi => exact List.mem_append_left _ (List.mem_append_left _ hy)

/-- The start frame is in its own touched list. -/
theorem self_mem_readTouched (h : Heap) (i : Nat) (loc : MLoc) :
    i ∈ readTouched h i loc := by
  apply mem_readTouched_base
  by_cases hg : loc.isGlobal = true
  · simp [hg]
  · simp only [hg, Bool.false_eq_true, if_false, ite_false]
    cases hf : frameAt h i with
    | none => simp
    | some fr => simp

/-- Frame resolution is unchanged by writing a frame off the touched
list. -/
theorem resolveFrame_set (h : Heap) (c : Nat) (x : FrameD) (i : Nat)
    (loc : MLoc) (hnt : c ∉ readTouched h i loc) :
    resolveFrame (h.set c x) i loc = resolveFrame h i loc := by
  unfold resolveFrame
  by_cases hg : loc.isGlobal = true
  · simp [hg]
  · simp only [hg, Bool.false_eq_true, if_false, ite_false]
    have hci : c ≠ i := fun hc => hnt (hc ▸ self_mem_readTouched h i loc)
    unfold findFrame
    rw [frameAt_set_ne h c x i hci]
    cases hf : frameAt h i with
    | none => rfl
    | some fr =>
      dsimp only
      by_cases hh : fr.height < loc.callHistory.length
      · simp [hh]
      · simp only [hh, if_false, ite_false]
        have hwv : c ∉ walkUpVisited h i (fr.height - loc.callHistory.length) := by
          intro hcw
          apply hnt
          apply mem_readTouched_base
          simp only [hg, Bool.false_eq_true, if_false, ite_false]
          rw [hf]
          exact List.mem_cons_of_mem _ hcw
        rw [walkUp_set h c x _ i hwv]
        cases hw : walkUp h i (fr.height - loc.callHistory.length) with
        | none => rfl
        | some cur =>
          dsimp only
          have hcur : c ≠ cur := by
            intro hc
            subst hc
            apply hnt
            apply mem_readTouched_base
            simp only [hg, Bool.false_eq_true, if_false, ite_false]
            rw [hf]
            exact List.mem_cons_of_mem _ (walkUp_mem h _ i c hw)
          rw [frameAt_set_ne h c x cur hcur]

/-- Reading a location from a frame is unchanged by writing a frame off
the touched list. -/
theorem readStore_set (h : Heap) (c : Nat) (x : FrameD) (p : Nat)
    (loc : MLoc) (hnt : c ∉ readTouched h p loc) :
    readStore (h.set c x) p loc = readStore h p loc := by
  unfold readStore
  rw [resolveFrame_set h c x p loc hnt]
  cases hrf : resolveFrame h p loc with
  | none => rfl
  | some fi =>
    dsimp only
    have hcfi : c ≠ fi := by
      intro hc
      subst hc
      apply hnt
      unfold readTouched
      rw [hrf]
      exact List.mem_append_left _ (List.mem_append_right _ (by simp))
    rw [frameAt_set_ne h c x fi hcfi]
    cases hf : frameAt h fi with
    | none => rfl
    | some fr =>
      dsimp only
      cases hsrc : fr.source with
      | none => rfl
      | some si =>
        dsimp only
        have hcsi : c ≠ si := by
          intro hc
          subst hc
          apply hnt
          unfold readTouched
          rw [hrf]
          apply List.mem_append_right
          rw [hf]
          dsimp only
          rw [hsrc]
          simp
        rw [frameAt_set_ne h c x si hcsi]

/-- C8: store frames are copy-on-write: updating a location that resolves
to a freshly-created child frame (one whose source pointer still points
at the parent) copies the parent's maps into the child, clears the source
and mutates only the child, so the parent frame is unchanged and reading
the same location from the parent still returns the parent's old
value. -/
theorem storeFrame_copy_on_write (h : Heap) (c p : Nat) (loc : MLoc)
    (address value : Option Nat) (fc fp : FrameD)
    (hc : frameAt h c = some fc) (hsrc : fc.source = some p)
    (hpv : frameAt h p = some fp)
    (hres : resolveFrame h c loc = some c)
    (hnt : c ∉ readTouched h p loc) :
    ∃ h', updateStore h c loc address value = some h' ∧
      frameAt h' p = frameAt h p ∧
      readStore h' p loc = readStore h p loc := by
  have hcp : c ≠ p := fun hc2 => hnt (hc2 ▸ self_mem_readTouched h p loc)
  have hupd : ∃ x, updateStore h c loc address value = some (h.set c x) := by
    unfold updateStore
    rw [hres]
    dsimp only
    rw [hc]
    dsimp only
    rw [hsrc]
    dsimp only
    rw [hpv]
    dsimp only
    exact ⟨_, rfl⟩
  obtain ⟨x, hx⟩ := hupd
  exact ⟨h.set c x, hx, frameAt_set_ne h c x p hcp,
    readStore_set h c x p loc hnt⟩

/-- Witness for C8 on a two-frame heap: frame 1 is a fresh child of frame
0 with source 0, sharing a global location; after the update through the
child, the parent frame and its read are unchanged. -/
theorem storeFrame_copy_on_write_witness :
    ∃ h', updateStore
        [⟨none, none, none, 0, [(⟨[], true, true, 0⟩, (some 1, some 2))], []⟩,
         ⟨some 0, some 0, some 7, 1, [], []⟩]
        1 ⟨[], true, true, 0⟩ (some 3) (some 4) = some h' ∧
      frameAt h' 0 =
        frameAt
          [⟨none, none, none, 0, [(⟨[], true, true, 0⟩, (some 1, some 2))], []⟩,
           ⟨some 0, some 0, some 7, 1, [], []⟩] 0 ∧
      readStore h' 0 ⟨[], true, true, 0⟩ =
        readStore
          [⟨none, none, none, 0, [(⟨[], true, true, 0⟩, (some 1, some 2))], []⟩,
           ⟨some 0, some 0, some 7, 1, [], []⟩] 0 ⟨[], true, true, 0⟩ :=
  storeFrame_copy_on_write _ 1 0 _ (some 3) (some 4)
    ⟨some 0, some 0, some 7, 1, [], []⟩
    ⟨none, none, none, 0, [(⟨[], true, true, 0⟩, (some 1, some 2))], []⟩
    rfl rfl rfl rfl (by decide)

end KleeTx

namespace KleeTx

open DependencyM

/-- A successful index read is within bounds. -/
theorem lt_length_of_get?_eq_some {s : DepState} {i : Nat} {nd : VNode}
    (h : s.get? i = some nd) : i < s.length := by
  by_contra hlt
  rw [List.get?_eq_none.mpr (Nat.le_of_not_lt hlt)] at h
  exact Option.noConfusion h

/-- directFlowSources depends only on the node's shape. -/
theorem directFlowSources_of_shape {a b : VNode}
    (h1 : a.sources = b.sources) (h2 : a.loadAddress = b.loadAddress)
    (h3 : a.storeAddress = b.storeAddress) :
    directFlowSources a = directFlowSources b := by
  unfold directFlowSources
  rw [h1, h2, h3]

/-- Flag changes preserve every node's shape. -/
theorem shapeAt_modifyAt (s : DepState) (i : Nat) (g : VNode → VNode)
    (hg : ∀ nd, (g nd).sources = nd.sources ∧
      (g nd).loadAddress = nd.loadAddress ∧
      (g nd).storeAddress = nd.storeAddress) (k : Nat) :
    shapeAt (modifyAt s i g) k = shapeAt s k := by
  unfold modifyAt
  cases hgi : s.get? i with
  | none => rfl
  | some nd =>
    unfold shapeAt
    by_cases hk : k = i
    · subst hk
      rw [List.get?_set_eq_of_lt _ (lt_length_of_get?_eq_some hgi), hgi]
      simp [(hg nd).1, (hg nd).2.1, (hg nd).2.2]
    · rw [List.get?_set_ne _ _ (fun h2 => hk h2.symm)]

/-- Core-preserving flag changes keep marked nodes marked. -/
theorem coreAt_modifyAt_mono (s : DepState) (i k : Nat) (g : VNode → VNode)
    (hg : ∀ nd, nd.core = true → (g nd).core = true)
    (h : coreAt s k = true) : coreAt (modifyAt s i g) k = true := by
  unfold modifyAt
  cases hgi : s.get? i with
  | none => exact h
  | some nd =>
    unfold coreAt at h ⊢
    by_cases hk : k = i
    · subst hk
      rw [List.get?_set_eq_of_lt _ (lt_length_of_get?_eq_some hgi)]
      rw [hgi] at h
      exact hg nd h
    · rw [List.get?_set_ne _ _ (fun h2 => hk h2.symm)]
      exact h

/-- Fold preservation of a state predicate. -/
theorem foldl_preserve {α : Type} (g : DepState → α → DepState)
    (P : DepState → Prop) :
    ∀ (l : List α) (s : DepState), P s →
      (∀ s' a, a ∈ l → P s' → P (g s' a)) → P (l.foldl g s) := by
  intro l
  induction l with
  | nil => intro s hs _; exact hs
  | cons a rest ih =>
    intro s hs hg
    exact ih (g s a) (hg s a (List.mem_cons_self a rest) hs)
      (fun s' b hb => hg s' b (List.mem_cons_of_mem a hb))

/-- markFlow never changes a node's shape. -/
theorem markFlow_shapeAt :
    ∀ (f : Nat) (s : DepState) (t : Option Nat) (k : Nat),
      shapeAt (markFlow f s t) k = shapeAt s k := by
  intro f
  induction f with
  | zero => intro s t k; rfl
  | succ f ih =>
    intro s t k
    cases t with
    | none => rfl
    | some i =>
      unfold markFlow
      cases hg : s.get? i with
      | none => rfl
      | some nd =>
        dsimp only
        by_cases hc : nd.core = true ∧ ¬nd.canInterpolateBound = true
        · rw [if_pos hc]
        · rw [if_neg hc]
          exact foldl_preserve _ (fun s' => shapeAt s' k = shapeAt s k) _ _
            (shapeAt_modifyAt s i
              (fun m => { m with core := true, canInterpolateBound := false })
              (fun _ => ⟨rfl, rfl, rfl⟩) k)
            (fun s' a _ hp => (ih s' (some a) k).trans hp)

/-- markFlow never unmarks a core node. -/
theorem markFlow_coreAt_mono :
    ∀ (f : Nat) (s : DepState) (t : Option Nat) (k : Nat),
      coreAt s k = true → coreAt (markFlow f s t) k = true := by
  intro f
  induction f with
  | zero => intro s t k h; exact h
  | succ f ih =>
    intro s t k h
    cases t with
    | none => exact h
    | some i =>
      unfold markFlow
      cases hg : s.get? i with
      | none => exact h
      | some nd =>
        dsimp only
        by_cases hc : nd.core = true ∧ ¬nd.canInterpolateBound = true
        · rw [if_pos hc]; exact h
        · rw [if_neg hc]
          exact foldl_preserve _ (fun s' => coreAt s' k = true) _ _
            (coreAt_modifyAt_mono s i k _ (fun _ _ => rfl) h)
            (fun s' a _ hp => ih s' (some a) k hp)

/-- markFlow marks its existing target as core. -/
theorem markFlow_sets_core (f : Nat) (hf : 0 < f) (s : DepState) (i : Nat)
    (nd : VNode) (hg : s.get? i = some nd) :
    coreAt (markFlow f s (some i)) i = true := by
  cases f with
  | zero => exact absurd hf (by omega)
  | succ f =>
    unfold markFlow
    rw [hg]
    dsimp only
    by_cases hc : nd.core = true ∧ ¬nd.canInterpolateBound = true
    · rw [if_pos hc]
      unfold coreAt
      rw [hg]
      exact hc.1
    · rw [if_neg hc]
      refine foldl_preserve _ (fun s' => coreAt s' i = true) _ _ ?_
        (fun s' a _ hp => markFlow_coreAt_mono f s' (some a) i hp)
      unfold coreAt modifyAt
      rw [hg]
      dsimp only
      rw [List.get?_set_eq_of_lt _ (lt_length_of_get?_eq_some hg)]

/-- Well-formed edges transfer along equal shapes. -/
theorem edgesWF_of_shapeAt {s s' : DepState}
    (hsh : ∀ k, shapeAt s' k = shapeAt s k) (hwf : EdgesWF s) : EdgesWF s' := by
  intro i nd' hget c hc
  have h1 : shapeAt s i =
      some (nd'.sources, nd'.loadAddress, nd'.storeAddress) := by
    rw [← hsh i]
    unfold shapeAt
    rw [hget]
    rfl
  unfold shapeAt at h1
  cases hgi : s.get? i with
  | none => rw [hgi] at h1; exact Option.noConfusion h1
  | some nd =>
    rw [hgi] at h1
    have h2 : (nd.sources, nd.loadAddress, nd.storeAddress) =
        (nd'.sources, nd'.loadAddress, nd'.storeAddress) := Option.some.inj h1
    have hdfs : directFlowSources nd' = directFlowSources nd :=
      directFlowSources_of_shape (congrArg Prod.fst h2).symm
        (congrArg (fun p => p.2.1) h2).symm
        (congrArg (fun p => p.2.2) h2).symm
    exact hwf i nd hgi c (hdfs ▸ hc)

/-- Shape presence extraction. -/
theorem get?_isSome_of_shapeAt {s : DepState} {c : Nat}
    (h : (shapeAt s c).isSome = true) : ∃ nd, s.get? c = some nd := by
  unfold shapeAt at h
  cases hg : s.get? c with
  | none => rw [hg] at h; simp at h
  | some nd => exact ⟨nd, rfl⟩

/-- After folding a marking step over a list of existing children, every
child is core. -/
theorem children_core_after_fold (step : DepState → Nat → DepState)
    (children : List Nat)
    (hshape : ∀ a c k, shapeAt (step a c) k = shapeAt a k)
    (hmono : ∀ a c k, coreAt a k = true → coreAt (step a c) k = true)
    (hsets : ∀ a c, c ∈ children → (shapeAt a c).isSome = true →
      coreAt (step a c) c = true) :
    ∀ acc, (∀ c ∈ children, (shapeAt acc c).isSome = true) →
      ∀ c ∈ children, coreAt (children.foldl step acc) c = true := by
  have haux : ∀ (l : List Nat), (∀ c ∈ l, c ∈ children) →
      ∀ acc, (∀ c ∈ l, (shapeAt acc c).isSome = true) →
        ∀ c ∈ l, coreAt (l.foldl step acc) c = true := by
    intro l
    induction l with
    | nil => intro _ acc _ c hc; exact absurd hc (by simp)
    | cons c0 cs ih =>
      intro hsub acc hex c hc
      rw [List.foldl_cons]
      have hcore0 : coreAt (step acc c0) c0 = true :=
        hsets acc c0 (hsub c0 (List.mem_cons_self c0 cs))
          (hex c0 (List.mem_cons_self c0 cs))
      rcases List.mem_cons.mp hc with hceq | hcmem
      · subst hceq
        exact foldl_preserve step (fun a => coreAt a c = true) cs _ hcore0
          (fun s' a _ hp => hmono s' a c hp)
      · exact ih (fun x hx => hsub x (List.mem_cons_of_mem c0 hx)) (step acc c0)
          (fun x hx => by
            rw [hshape acc c0 x]
            exact hex x (List.mem_cons_of_mem c0 hx))
          c hcmem
  intro acc hex c hc
  exact haux children (fun x hx => hx) acc hex c hc

/-- markFlow preserves core closure up to pending exceptions. -/
theorem markFlow_closed :
    ∀ (f : Nat) (s : DepState) (j : Nat) (X : List Nat),
      EdgesWF s → j < f → CoreClosedExcept s X →
      CoreClosedExcept (markFlow f s (some j)) X := by
  intro f
  induction f with
  | zero => intro s j X _ hj _; exact absurd hj (Nat.not_lt_zero j)
  | succ f ih =>
    intro s j X hwf hj hcc
    unfold markFlow
    cases hg : s.get? j with
    | none => exact hcc
    | some nd =>
      dsimp only
      by_cases hc : nd.core = true ∧ ¬nd.canInterpolateBound = true
      · rw [if_pos hc]
        -- early return: the target is already core with bound
        -- interpolation disabled; closure is the hypothesis
        exact hcc
      · rw [if_neg hc]
        have hshape1 : ∀ k, shapeAt (modifyAt s j (fun m =>
            { m with core := true, canInterpolateBound := false })) k =
            shapeAt s k :=
          shapeAt_modifyAt s j _ (fun _ => ⟨rfl, rfl, rfl⟩)
        have hcc1 : CoreClosedExcept (modifyAt s j (fun m =>
            { m with core := true, canInterpolateBound := false })) (j :: X) := by
          intro k ndk hk hcore
          by_cases hkj : k = j
          · subst hkj
            exact Or.inl (List.mem_cons_self _ _)
          · have hk' : s.get? k = some ndk := by
              unfold modifyAt at hk
              rw [hg] at hk
              rwa [List.get?_set_ne _ _ (fun h2 => hkj h2.symm)] at hk
            rcases hcc k ndk hk' hcore with hx | hch
            · exact Or.inl (List.mem_cons_of_mem _ hx)
            · refine Or.inr (fun c hcdfs => ?_)
              exact coreAt_modifyAt_mono s j c _ (fun _ _ => rfl) (hch c hcdfs)
        have hchlt : ∀ c ∈ directFlowSources nd, c < j :=
          fun c hcm => hwf j nd hg c hcm
        have hfold := foldl_preserve (fun a c => markFlow f a (some c))
          (fun acc => CoreClosedExcept acc (j :: X) ∧
            ∀ k, shapeAt acc k = shapeAt s k)
          (directFlowSources nd)
          (modifyAt s j (fun m =>
            { m with core := true, canInterpolateBound := false }))
          ⟨hcc1, hshape1⟩
          (fun acc c hcmem hp => by
            have hwfacc : EdgesWF acc := edgesWF_of_shapeAt hp.2 hwf
            have hcf : c < f := by
              have := hchlt c hcmem
              omega
            exact ⟨ih acc c (j :: X) hwfacc hcf hp.1,
              fun k => (markFlow_shapeAt f acc (some c) k).trans (hp.2 k)⟩)
        obtain ⟨hccF, hshF⟩ := hfold
        have hchildcore : ∀ c ∈ directFlowSources nd,
            coreAt ((directFlowSources nd).foldl
              (fun a c2 => markFlow f a (some c2))
              (modifyAt s j (fun m =>
                { m with core := true, canInterpolateBound := false }))) c =
              true := by
          refine children_core_after_fold _ _
            (fun a c k => markFlow_shapeAt f a (some c) k)
            (fun a c k hp => markFlow_coreAt_mono f a (some c) k hp)
            (fun a c hcm hsome => ?_) _ (fun c hcm => ?_) 
          · obtain ⟨ndc, hndc⟩ := get?_isSome_of_shapeAt hsome
            have hposf : 0 < f := by
              have := hchlt c hcm
              omega
            exact markFlow_sets_core f hposf a c ndc hndc
          · rw [hshape1 c]
            have hcj : c < s.length := by
              have h1 := hchlt c hcm
              have h2 := lt_length_of_get?_eq_some hg
              omega
            unfold shapeAt
            cases hgc : s.get? c with
            | none =>
              exact absurd (List.get?_eq_none.mp hgc) (by omega)
            | some ndc => simp
        intro k ndk hk hcore
        by_cases hkj : k = j
        · subst hkj
          refine Or.inr (fun c hcdfs => ?_)
          have hshk : shapeAt s k =
              some (ndk.sources, ndk.loadAddress, ndk.storeAddress) := by
            rw [← hshF k]
            unfold shapeAt
            rw [hk]
            rfl
          unfold shapeAt at hshk
          rw [hg] at hshk
          have hsk2 : (nd.sources, nd.loadAddress, nd.storeAddress) =
              (ndk.sources, ndk.loadAddress, ndk.storeAddress) :=
            Option.some.inj hshk
          have hdfs : directFlowSources ndk = directFlowSources nd :=
            directFlowSources_of_shape (congrArg Prod.fst hsk2).symm
              (congrArg (fun p => p.2.1) hsk2).symm
              (congrArg (fun p => p.2.2) hsk2).symm
          exact hchildcore c (hdfs ▸ hcdfs)
        · rcases hccF k ndk hk hcore with hx | hch
          · rcases List.mem_cons.mp hx with hx1 | hx2
            · exact absurd hx1 hkj
            · exact Or.inl hx2
          · exact Or.inr hch

end KleeTx

namespace KleeTx

open DependencyM

/-- markFlow on a null target is the identity. -/
theorem markFlow_none (f : Nat) (s : DepState) : markFlow f s none = s := by
  cases f <;> rfl

/-- An optional-target wrapper for markFlow closure. -/
theorem markFlow_closed_opt (f : Nat) (s : DepState) (t : Option Nat)
    (X : List Nat) (hwf : EdgesWF s) (ht : ∀ a, t = some a → a < f)
    (hcc : CoreClosedExcept s X) : CoreClosedExcept (markFlow f s t) X := by
  cases t with
  | none => rw [markFlow_none]; exact hcc
  | some a => exact markFlow_closed f s a X hwf (ht a rfl) hcc

/-- A load address is a direct flow source. -/
theorem la_mem_dfs (nd : VNode) (a : Nat) (h : nd.loadAddress = some a) :
    a ∈ directFlowSources nd := by
  unfold directFlowSources
  rw [h]
  cases hsa : nd.storeAddress with
  | none => exact List.mem_append_right _ (List.mem_singleton_self a)
  | some b =>
    refine List.mem_append_right _ ?_
    dsimp only
    by_cases hab : b ≠ a
    · rw [if_pos hab]
      exact List.mem_cons_self a [b]
    · rw [if_neg hab]
      exact List.mem_singleton_self a

/-- A store address is a direct flow source. -/
theorem sa_mem_dfs (nd : VNode) (b : Nat) (h : nd.storeAddress = some b) :
    b ∈ directFlowSources nd := by
  unfold directFlowSources
  rw [h]
  cases hla : nd.loadAddress with
  | none => exact List.mem_append_right _ (List.mem_singleton_self b)
  | some a =>
    refine List.mem_append_right _ ?_
    dsimp only
    by_cases hab : b ≠ a
    · rw [if_pos hab]
      exact List.mem_cons_of_mem a (List.mem_singleton_self b)
    · rw [if_neg hab]
      have hba : b = a := by
        by_contra hne
        exact hab hne
      rw [hba]
      exact List.mem_singleton_self a

/-- markPointerFlow never changes a node's shape. -/
theorem markPointerFlow_shapeAt :
    ∀ (f : Nat) (s : DepState) (t : Option Nat) (k : Nat),
      shapeAt (markPointerFlow f s t) k = shapeAt s k := by
  intro f
  induction f with
  | zero => intro s t k; rfl
  | succ f ih =>
    intro s t k
    cases t with
    | none => rfl
    | some i =>
      unfold markPointerFlow
      cases hg : s.get? i with
      | none => rfl
      | some nd =>
        dsimp only
        refine (markFlow_shapeAt f _ nd.storeAddress k).trans ?_
        refine (markFlow_shapeAt f _ nd.loadAddress k).trans ?_
        exact foldl_preserve _ (fun s' => shapeAt s' k = shapeAt s k) _ _
          (shapeAt_modifyAt s i (fun m => { m with core := true })
            (fun _ => ⟨rfl, rfl, rfl⟩) k)
          (fun s' a _ hp => (ih s' (some a) k).trans hp)

/-- markPointerFlow never unmarks a core node. -/
theorem markPointerFlow_coreAt_mono :
    ∀ (f : Nat) (s : DepState) (t : Option Nat) (k : Nat),
      coreAt s k = true → coreAt (markPointerFlow f s t) k = true := by
  intro f
  induction f with
  | zero => intro s t k h; exact h
  | succ f ih =>
    intro s t k h
    cases t with
    | none => exact h
    | some i =>
      unfold markPointerFlow
      cases hg : s.get? i with
      | none => exact h
      | some nd =>
        dsimp only
        refine markFlow_coreAt_mono f _ nd.storeAddress k ?_
        refine markFlow_coreAt_mono f _ nd.loadAddress k ?_
        exact foldl_preserve _ (fun s' => coreAt s' k = true) _ _
          (coreAt_modifyAt_mono s i k _ (fun _ _ => rfl) h)
          (fun s' a _ hp => ih s' (some a) k hp)

/-- markPointerFlow marks its existing target as core. -/
theorem markPointerFlow_sets_core (f : Nat) (hf : 0 < f) (s : DepState)
    (i : Nat) (nd : VNode) (hg : s.get? i = some nd) :
    coreAt (markPointerFlow f s (some i)) i = true := by
  cases f with
  | zero => exact absurd hf (by omega)
  | succ f =>
    unfold markPointerFlow
    rw [hg]
    dsimp only
    refine markFlow_coreAt_mono f _ nd.storeAddress i ?_
    refine markFlow_coreAt_mono f _ nd.loadAddress i ?_
    refine foldl_preserve _ (fun s' => coreAt s' i = true) _ _ ?_
      (fun s' a _ hp => markPointerFlow_coreAt_mono f s' (some a) i hp)
    unfold coreAt modifyAt
    rw [hg]
    dsimp only
    rw [List.get?_set_eq_of_lt _ (lt_length_of_get?_eq_some hg)]

/-- markPointerFlow preserves core closure up to pending exceptions. -/
theorem markPointerFlow_closed :
    ∀ (f : Nat) (s : DepState) (j : Nat) (X : List Nat),
      EdgesWF s → j < f → CoreClosedExcept s X →
      CoreClosedExcept (markPointerFlow f s (some j)) X := by
  intro f
  induction f with
  | zero => intro s j X _ hj _; exact absurd hj (Nat.not_lt_zero j)
  | succ f ih =>
    intro s j X hwf hj hcc
    unfold markPointerFlow
    cases hg : s.get? j with
    | none => exact hcc
    | some nd =>
      dsimp only
      have hjlen : j < s.length := lt_length_of_get?_eq_some hg
      have hshape1 : ∀ k,
          shapeAt (modifyAt s j (fun m => { m with core := true })) k =
            shapeAt s k :=
        shapeAt_modifyAt s j _ (fun _ => ⟨rfl, rfl, rfl⟩)
      have hcc1 : CoreClosedExcept
          (modifyAt s j (fun m => { m with core := true })) (j :: X) := by
        intro k ndk hk hcore
        by_cases hkj : k = j
        · subst hkj
          exact Or.inl (List.mem_cons_self _ _)
        · have hk' : s.get? k = some ndk := by
            unfold modifyAt at hk
            rw [hg] at hk
            rwa [List.get?_set_ne _ _ (fun h2 => hkj h2.symm)] at hk
          rcases hcc k ndk hk' hcore with hx | hch
          · exact Or.inl (List.mem_cons_of_mem _ hx)
          · refine Or.inr (fun c hcdfs => ?_)
            exact coreAt_modifyAt_mono s j c _ (fun _ _ => rfl) (hch c hcdfs)
      have hsrclt : ∀ c ∈ nd.sources, c < j :=
        fun c hcm => hwf j nd hg c (List.mem_append_left _ hcm)
      have hfold := foldl_preserve
        (fun a c => markPointerFlow f a (some c))
        (fun acc => CoreClosedExcept acc (j :: X) ∧
          ∀ k, shapeAt acc k = shapeAt s k)
        nd.sources (modifyAt s j (fun m => { m with core := true }))
        ⟨hcc1, hshape1⟩
        (fun acc c hcmem hp => by
          have hcf : c < f := by
            have := hsrclt c hcmem
            omega
          exact ⟨ih acc c (j :: X) (edgesWF_of_shapeAt hp.2 hwf) hcf hp.1,
            fun k => (markPointerFlow_shapeAt f acc (some c) k).trans (hp.2 k)⟩)
      obtain ⟨hccT2, hshT2⟩ := hfold
      have hlalt : ∀ a, nd.loadAddress = some a → a < j :=
        fun a ha => hwf j nd hg a (la_mem_dfs nd a ha)
      have hsalt : ∀ b, nd.storeAddress = some b → b < j :=
        fun b hb => hwf j nd hg b (sa_mem_dfs nd b hb)
      have hccT3 : CoreClosedExcept (markFlow f
          (nd.sources.foldl (fun a c => markPointerFlow f a (some c))
            (modifyAt s j (fun m => { m with core := true })))
          nd.loadAddress) (j :: X) :=
        markFlow_closed_opt f _ nd.loadAddress (j :: X)
          (edgesWF_of_shapeAt hshT2 hwf)
          (fun a ha => by
            have := hlalt a ha
            omega) hccT2
      have hshT3 : ∀ k, shapeAt (markFlow f
          (nd.sources.foldl (fun a c => markPointerFlow f a (some c))
            (modifyAt s j (fun m => { m with core := true })))
          nd.loadAddress) k = shapeAt s k :=
        fun k => (markFlow_shapeAt f _ nd.loadAddress k).trans (hshT2 k)
      have hccT4 : CoreClosedExcept (markFlow f (markFlow f
          (nd.sources.foldl (fun a c => markPointerFlow f a (some c))
            (modifyAt s j (fun m => { m with core := true })))
          nd.loadAddress) nd.storeAddress) (j :: X) :=
        markFlow_closed_opt f _ nd.storeAddress (j :: X)
          (edgesWF_of_shapeAt hshT3 hwf)
          (fun b hb => by
            have := hsalt b hb
            omega) hccT3
      have hshT4 : ∀ k, shapeAt (markFlow f (markFlow f
          (nd.sources.foldl (fun a c => markPointerFlow f a (some c))
            (modifyAt s j (fun m => { m with core := true })))
          nd.loadAddress) nd.storeAddress) k = shapeAt s k :=
        fun k => (markFlow_shapeAt f _ nd.storeAddress k).trans (hshT3 k)
      have hshapeSome : ∀ c, c < j →
          (shapeAt s c).isSome = true := by
        intro c hcj
        unfold shapeAt
        cases hgc : s.get? c with
        | none =>
          have := List.get?_eq_none.mp hgc
          omega
        | some ndc => simp
      have hsrccore : ∀ c ∈ nd.sources,
          coreAt (nd.sources.foldl (fun a c2 => markPointerFlow f a (some c2))
            (modifyAt s j (fun m => { m with core := true }))) c = true := by
        refine children_core_after_fold _ _
          (fun a c k => markPointerFlow_shapeAt f a (some c) k)
          (fun a c k hp => markPointerFlow_coreAt_mono f a (some c) k hp)
          (fun a c hcm hsome => ?_) _ (fun c hcm => ?_)
        · obtain ⟨ndc, hndc⟩ := get?_isSome_of_shapeAt hsome
          have hposf : 0 < f := by
            have := hsrclt c hcm
            omega
          exact markPointerFlow_sets_core f hposf a c ndc hndc
        · rw [hshape1 c]
          exact hshapeSome c (hsrclt c hcm)
      have hchildcore : ∀ c ∈ directFlowSources nd,
          coreAt (markFlow f (markFlow f
            (nd.sources.foldl (fun a c2 => markPointerFlow f a (some c2))
              (modifyAt s j (fun m => { m with core := true })))
            nd.loadAddress) nd.storeAddress) c = true := by
        intro c hcdfs
        unfold directFlowSources at hcdfs
        rcases List.mem_append.mp hcdfs with hsrc | haddr
        · refine markFlow_coreAt_mono f _ nd.storeAddress c ?_
          refine markFlow_coreAt_mono f _ nd.loadAddress c ?_
          exact hsrccore c hsrc
        · have hla_core : ∀ a, nd.loadAddress = some a → c = a →
              coreAt (markFlow f (markFlow f
                (nd.sources.foldl (fun a2 c2 => markPointerFlow f a2 (some c2))
                  (modifyAt s j (fun m => { m with core := true })))
                nd.loadAddress) nd.storeAddress) c = true := by
            intro a ha hca
            subst hca
            refine markFlow_coreAt_mono f _ nd.storeAddress c ?_
            have hclt : c < j := hlalt c ha
            have hposf : 0 < f := by omega
            have hsome : (shapeAt (nd.sources.foldl
                (fun a2 c2 => markPointerFlow f a2 (some c2))
                (modifyAt s j (fun m => { m with core := true }))) c).isSome =
                true := by
              rw [hshT2 c]
              exact hshapeSome c hclt
            obtain ⟨ndc, hndc⟩ := get?_isSome_of_shapeAt hsome
            rw [ha]
            exact markFlow_sets_core f hposf _ c ndc hndc
          have hsa_core : ∀ b, nd.storeAddress = some b → c = b →
              coreAt (markFlow f (markFlow f
                (nd.sources.foldl (fun a2 c2 => markPointerFlow f a2 (some c2))
                  (modifyAt s j (fun m => { m with core := true })))
                nd.loadAddress) nd.storeAddress) c = true := by
            intro b hb hcb
            subst hcb
            have hclt : c < j := hsalt c hb
            have hposf : 0 < f := by omega
            have hsome : (shapeAt (markFlow f (nd.sources.foldl
                (fun a2 c2 => markPointerFlow f a2 (some c2))
                (modifyAt s j (fun m => { m with core := true })))
                nd.loadAddress) c).isSome = true := by
              rw [hshT3 c]
              exact hshapeSome c hclt
            obtain ⟨ndc, hndc⟩ := get?_isSome_of_shapeAt hsome
            rw [hb]
            exact markFlow_sets_core f hposf _ c ndc hndc
          have haddr2 : (∃ a, nd.loadAddress = some a ∧ c = a) ∨
              (∃ b, nd.storeAddress = some b ∧ c = b) := by
            cases hla : nd.loadAddress with
            | none =>
              cases hsa : nd.storeAddress with
              | none =>
                rw [hla, hsa] at haddr
                exact absurd haddr (by simp)
              | some b =>
                rw [hla, hsa] at haddr
                dsimp only at haddr
                exact Or.inr ⟨b, rfl, by simpa using haddr⟩
            | some a =>
              cases hsa : nd.storeAddress with
              | none =>
                rw [hla, hsa] at haddr
                dsimp only at haddr
                exact Or.inl ⟨a, rfl, by simpa using haddr⟩
              | some b =>
                rw [hla, hsa] at haddr
                dsimp only at haddr
                by_cases hab : b ≠ a
                · rw [if_pos hab] at haddr
                  rcases List.mem_cons.mp haddr with hca | hcb
                  · exact Or.inl ⟨a, rfl, hca⟩
                  · exact Or.inr ⟨b, rfl, by simpa using hcb⟩
                · rw [if_neg hab] at haddr
                  exact Or.inl ⟨a, rfl, by simpa using haddr⟩
          rcases haddr2 with ⟨a, hla2, hca⟩ | ⟨b, hsb2, hcb⟩
          · exact hla_core a hla2 hca
          · exact hsa_core b hsb2 hcb
      intro k ndk hk hcore
      by_cases hkj : k = j
      · subst hkj
        refine Or.inr (fun c hcdfs => ?_)
        have hshk : shapeAt s k =
            some (ndk.sources, ndk.loadAddress, ndk.storeAddress) := by
          rw [← hshT4 k]
          unfold shapeAt
          rw [hk]
          rfl
        unfold shapeAt at hshk
        rw [hg] at hshk
        have hsk2 : (nd.sources, nd.loadAddress, nd.storeAddress) =
            (ndk.sources, ndk.loadAddress, ndk.storeAddress) :=
          Option.some.inj hshk
        have hdfs : directFlowSources ndk = directFlowSources nd :=
          directFlowSources_of_shape (congrArg Prod.fst hsk2).symm
            (congrArg (fun p => p.2.1) hsk2).symm
            (congrArg (fun p => p.2.2) hsk2).symm
        exact hchildcore c (hdfs ▸ hcdfs)
      · rcases hccT4 k ndk hk hcore with hx | hch
        · rcases List.mem_cons.mp hx with hx1 | hx2
          · exact absurd hx1 hkj
          · exact Or.inl hx2
        · exact Or.inr hch

end KleeTx

namespace KleeTx

open DependencyM

/-- Closure with an empty exception set is closure. -/
theorem coreClosed_of_except_nil {s : DepState}
    (h : CoreClosedExcept s []) : CoreClosed s := by
  intro i nd hg hc j hj
  rcases h i nd hg hc with hx | hch
  · exact absurd hx (by simp)
  · exact hch j hj

/-- Closure gives closure up to any exception set. -/
theorem except_of_coreClosed {s : DepState} (X : List Nat)
    (h : CoreClosed s) : CoreClosedExcept s X :=
  fun i nd hg hc => Or.inr (h i nd hg hc)

/-- markFlow on an out-of-range target is the identity. -/
theorem markFlow_oob (f : Nat) {s : DepState} {i : Nat}
    (h : s.length ≤ i) : markFlow f s (some i) = s := by
  cases f with
  | zero => rfl
  | succ f =>
    unfold markFlow
    rw [List.get?_eq_none.mpr h]

/-- markPointerFlow on an out-of-range target is the identity. -/
theorem markPointerFlow_oob (f : Nat) {s : DepState} {i : Nat}
    (h : s.length ≤ i) : markPointerFlow f s (some i) = s := by
  cases f with
  | zero => rfl
  | succ f =>
    unfold markPointerFlow
    rw [List.get?_eq_none.mpr h]

/-- Direct flow sources come from the sources list or the two address
fields. -/
theorem mem_dfs_cases {nd : VNode} {c : Nat}
    (h : c ∈ directFlowSources nd) :
    c ∈ nd.sources ∨ (∃ a, nd.loadAddress = some a ∧ c = a) ∨
      (∃ b, nd.storeAddress = some b ∧ c = b) := by
  unfold directFlowSources at h
  rcases List.mem_append.mp h with hs | ha
  · exact Or.inl hs
  · refine Or.inr ?_
    cases hla : nd.loadAddress with
    | none =>
      cases hsa : nd.storeAddress with
      | none =>
        rw [hla, hsa] at ha
        exact absurd ha (by simp)
      | some b =>
        rw [hla, hsa] at ha
        dsimp only at ha
        exact Or.inr ⟨b, rfl, by simpa using ha⟩
    | some a =>
      cases hsa : nd.storeAddress with
      | none =>
        rw [hla, hsa] at ha
        dsimp only at ha
        exact Or.inl ⟨a, rfl, by simpa using ha⟩
      | some b =>
        rw [hla, hsa] at ha
        dsimp only at ha
        by_cases hab : b ≠ a
        · rw [if_pos hab] at ha
          rcases List.mem_cons.mp ha with hca | hcb
          · exact Or.inl ⟨a, rfl, hca⟩
          · exact Or.inr ⟨b, rfl, by simpa using hcb⟩
        · rw [if_neg hab] at ha
          exact Or.inl ⟨a, rfl, by simpa using ha⟩

/-- Each event preserves well-formed edges and core closure. -/
theorem applyDepOp_invariant (s : DepState) (op : DepOp)
    (hwf : EdgesWF s) (hcc : CoreClosed s) :
    EdgesWF (applyDepOp s op) ∧ CoreClosed (applyDepOp s op) := by
  cases op with
  | newValue srcs la sa canBound =>
    unfold applyDepOp
    dsimp only
    split
    next hgd =>
      simp only [Bool.and_eq_true, List.all_eq_true, decide_eq_true_eq] at hgd
      have hsrcb : ∀ c ∈ srcs, c < s.length := hgd.1.1
      have hlab : ∀ a, la = some a → a < s.length := by
        intro a haa
        subst haa
        have h2 := hgd.1.2
        simpa [Option.all] using h2
      have hsab : ∀ b, sa = some b → b < s.length := by
        intro b hbb
        subst hbb
        have h2 := hgd.2
        simpa [Option.all] using h2
      have hdfs0 : ∀ c ∈ directFlowSources
          ({ sources := srcs, loadAddress := la, storeAddress := sa,
             core := false, canInterpolateBound := canBound } : VNode),
          c < s.length := by
        intro c hcm
        rcases mem_dfs_cases hcm with hs | ⟨a, haa, hca⟩ | ⟨b, hbb, hcb⟩
        · exact hsrcb c hs
        · subst hca
          exact hlab c haa
        · subst hcb
          exact hsab c hbb
      constructor
      · intro i ndi hgi c hcm
        have hilen : i < s.length + 1 := by
          have := lt_length_of_get?_eq_some hgi
          simpa using this
        by_cases hi : i < s.length
        · rw [List.get?_append hi] at hgi
          exact hwf i ndi hgi c hcm
        · have hieq : i = s.length := by omega
          subst hieq
          rw [List.get?_concat_length] at hgi
          have hndi := Option.some.inj hgi
          subst hndi
          exact hdfs0 c hcm
      · intro i ndi hgi hcore j hj
        by_cases hi : i < s.length
        · rw [List.get?_append hi] at hgi
          have hjlen : j < s.length := Nat.lt_trans (hwf i ndi hgi j hj) hi
          have hjc := hcc i ndi hgi hcore j hj
          unfold coreAt at hjc ⊢
          rw [List.get?_append hjlen]
          exact hjc
        · have hilen : i < s.length + 1 := by
            have := lt_length_of_get?_eq_some hgi
            simpa using this
          have hieq : i = s.length := by omega
          subst hieq
          rw [List.get?_concat_length] at hgi
          have hndi := Option.some.inj hgi
          subst hndi
          simp at hcore
    next hgd =>
      exact ⟨hwf, hcc⟩
  | markFlowOp i =>
    unfold applyDepOp
    dsimp only
    by_cases hi : i < s.length
    · refine ⟨edgesWF_of_shapeAt
        (fun k => markFlow_shapeAt s.length s (some i) k) hwf, ?_⟩
      exact coreClosed_of_except_nil
        (markFlow_closed s.length s i [] hwf hi (except_of_coreClosed [] hcc))
    · rw [markFlow_oob s.length (Nat.le_of_not_lt hi)]
      exact ⟨hwf, hcc⟩
  | markPointerFlowOp i =>
    unfold applyDepOp
    dsimp only
    by_cases hi : i < s.length
    · refine ⟨edgesWF_of_shapeAt
        (fun k => markPointerFlow_shapeAt s.length s (some i) k) hwf, ?_⟩
      exact coreClosed_of_except_nil
        (markPointerFlow_closed s.length s i [] hwf hi
          (except_of_coreClosed [] hcc))
    · rw [markPointerFlow_oob s.length (Nat.le_of_not_lt hi)]
      exact ⟨hwf, hcc⟩

/-- The value table built by any event sequence has well-formed edges
and core-closed marking. -/
theorem runDepOps_invariant (ops : List DepOp) :
    EdgesWF (runDepOps ops) ∧ CoreClosed (runDepOps ops) := by
  unfold runDepOps
  refine foldl_preserve applyDepOp (fun s => EdgesWF s ∧ CoreClosed s) ops []
    ⟨?_, ?_⟩ (fun s op _ hp => applyDepOp_invariant s op hp.1 hp.2)
  · intro i nd hgi
    rw [List.get?_eq_none.mpr (Nat.zero_le i)] at hgi
    exact Option.noConfusion hgi
  · intro i nd hgi
    rw [List.get?_eq_none.mpr (Nat.zero_le i)] at hgi
    exact Option.noConfusion hgi

end KleeTx

namespace KleeTx

open DependencyM

/-- C6: Core marking is monotonic over the flow graph.  After any
sequence of value-creation and marking events (Dependency::execute,
Dependency::markFlow via markAllValues, Dependency::markPointerFlow via
markAllPointerValues), if the versioned value V1 is marked core then
every value V2 reachable from V1 through the transitive closure of its
direct flow sources (Dependency::directFlowSources: the sources keys
plus the load and store address values) is also marked core. -/
theorem core_marking_monotonic (ops : List DepOp) (i j : Nat)
    (hcore : coreAt (runDepOps ops) i = true)
    (hreach : FlowReach (runDepOps ops) i j) :
    coreAt (runDepOps ops) j = true := by
  obtain ⟨hwf, hcc⟩ := runDepOps_invariant ops
  unfold FlowReach at hreach
  induction hreach with
  | refl => exact hcore
  | @tail b c h1 h2 ih =>
    unfold flowEdge at h2
    cases hgb : (runDepOps ops).get? b with
    | none =>
      rw [hgb] at h2
      dsimp only at h2
      exact absurd h2 (by simp)
    | some nd =>
      rw [hgb] at h2
      dsimp only at h2
      have hmem : c ∈ directFlowSources nd := by
        simpa using h2
      have hndc : nd.core = true := by
        have hb := ih
        unfold coreAt at hb
        rw [hgb] at hb
        exact hb
      exact hcc b nd hgb hndc c hmem

end KleeTx

namespace KleeTx

open DependencyM

/-- Witness for core_marking_monotonic: value 1 flows from value 0;
marking value 1 marks value 0 as well. -/
theorem core_marking_monotonic_witness :
    coreAt (runDepOps [DepOp.newValue [] none none true,
      DepOp.newValue [0] none none true, DepOp.markFlowOp 1]) 1 = true ∧
    coreAt (runDepOps [DepOp.newValue [] none none true,
      DepOp.newValue [0] none none true, DepOp.markFlowOp 1]) 0 = true :=
  ⟨by decide,
   core_marking_monotonic
     [DepOp.newValue [] none none true, DepOp.newValue [0] none none true,
      DepOp.markFlowOp 1] 1 0 (by decide)
     (Relation.ReflTransGen.single (by decide))⟩

end KleeTx

namespace KleeTx

open BoundsM

/-- UltExpr::create with a symbolic left operand is not constant. -/
theorem ultCreate_nonconst_left {off : KExpr} (bnd : KExpr)
    (h : asConstVal off = none) : isConstantExpr (ultCreate off bnd) = false := by
  unfold ultCreate
  rw [h]
  cases hb : asConstVal bnd <;> rfl

/-- UltExpr::create with a symbolic right operand is not constant. -/
theorem ultCreate_nonconst_right (off : KExpr) {bnd : KExpr}
    (h : asConstVal bnd = none) : isConstantExpr (ultCreate off bnd) = false := by
  unfold ultCreate
  rw [h]
  cases ho : asConstVal off <;> rfl

/-- UltExpr::create folds to true on an in-bounds concrete pair. -/
theorem ultCreate_true_of_lt {off bnd : KExpr} {so tb : Nat}
    (ho : asConstVal off = some so) (hb : asConstVal bnd = some tb)
    (h : so < tb) : ultCreate off bnd = trueE := by
  unfold ultCreate
  rw [ho, hb]
  dsimp only
  unfold trueE
  rw [decide_eq_true h]

/-- AndExpr::create of two non-constant operands is the conjunction
node. -/
theorem andCreate_nonconst_both {u r : KExpr}
    (hu : isConstantExpr u = false) (hr : isConstantExpr r = false) :
    andCreate u r = KExpr.andE u r := by
  cases u <;> cases r <;>
    first
    | rfl
    | exact Bool.noConfusion hu
    | exact Bool.noConfusion hr

/-- AndExpr::create of a non-constant with constant true is the
operand. -/
theorem andCreate_nonconst_true_right {u : KExpr}
    (hu : isConstantExpr u = false) : andCreate u trueE = u := by
  cases u <;>
    first
    | rfl
    | exact Bool.noConfusion hu

/-- AndExpr::create keeps a non-constant right operand non-constant when
the left operand is true or non-constant. -/
theorem andCreate_nonconst (u r : KExpr)
    (hu : u = trueE ∨ isConstantExpr u = false)
    (hr : isConstantExpr r = false) :
    isConstantExpr (andCreate u r) = false := by
  rcases hu with hu | hu
  · rw [hu, andCreate_true_left]
    exact hr
  · rw [andCreate_nonconst_both hu hr]
    rfl

end KleeTx

namespace KleeTx

open BoundsM

/-- Inserting a non-constant Ult makes res non-constant when the
accumulator is well formed. -/
theorem addUlt_nonconst_of_u (off bnd : KExpr) (acc : BAcc)
    (hu : isConstantExpr (ultCreate off bnd) = false)
    (hg : accTrueishB acc = true ∨ accNonConstB acc = true) :
    accNonConstB (addUlt off bnd acc) = true := by
  obtain ⟨a1, a2⟩ := acc
  cases a1 with
  | none =>
    unfold accNonConstB addUlt
    dsimp only
    rw [hu]
    rfl
  | some r =>
    rcases hg with hg | hg
    · have hr : r = trueE := by
        unfold accTrueishB at hg
        dsimp only at hg
        exact eq_of_beq hg
      subst hr
      unfold accNonConstB addUlt
      dsimp only
      rw [andCreate_nonconst_true_right hu, hu]
      rfl
    · have hr : isConstantExpr r = false := by
        unfold accNonConstB at hg
        dsimp only at hg
        simpa using hg
      unfold accNonConstB addUlt
      dsimp only
      rw [andCreate_nonconst _ _ (Or.inr hu) hr]
      rfl

/-- Inserting a well-behaved Ult keeps res non-constant. -/
theorem addUlt_sticky (off bnd : KExpr) (acc : BAcc)
    (hu : ultCreate off bnd = trueE ∨
      isConstantExpr (ultCreate off bnd) = false)
    (hg : accNonConstB acc = true) :
    accNonConstB (addUlt off bnd acc) = true := by
  obtain ⟨a1, a2⟩ := acc
  cases a1 with
  | none =>
    unfold accNonConstB at hg
    dsimp only at hg
    exact absurd hg (by simp)
  | some r =>
    have hr : isConstantExpr r = false := by
      unfold accNonConstB at hg
      dsimp only at hg
      simpa using hg
    unfold accNonConstB addUlt
    dsimp only
    rw [andCreate_nonconst _ _ hu hr]
    rfl

/-- Inserting a folded-to-true Ult keeps res null-or-true. -/
theorem addUlt_trueish (off bnd : KExpr) (acc : BAcc)
    (hu : ultCreate off bnd = trueE)
    (hg : accTrueishB acc = true) :
    accTrueishB (addUlt off bnd acc) = true := by
  obtain ⟨a1, a2⟩ := acc
  cases a1 with
  | none =>
    unfold accTrueishB addUlt
    dsimp only
    rw [hu]
    simp
  | some r =>
    have hr : r = trueE := by
      unfold accTrueishB at hg
      dsimp only at hg
      exact eq_of_beq hg
    subst hr
    unfold accTrueishB addUlt
    dsimp only
    rw [hu, andCreate_true_left]
    simp

/-- Inserting a well-behaved Ult keeps the accumulator well formed. -/
theorem addUlt_good (off bnd : KExpr) (acc : BAcc)
    (hu : ultCreate off bnd = trueE ∨
      isConstantExpr (ultCreate off bnd) = false)
    (hg : accTrueishB acc = true ∨ accNonConstB acc = true) :
    accTrueishB (addUlt off bnd acc) = true ∨
      accNonConstB (addUlt off bnd acc) = true := by
  rcases hu with hu | hu
  · rcases hg with hg | hg
    · exact Or.inl (addUlt_trueish off bnd acc hu hg)
    · exact Or.inr (addUlt_sticky off bnd acc (Or.inl hu) hg)
  · exact Or.inr (addUlt_nonconst_of_u off bnd acc hu hg)

end KleeTx

namespace KleeTx

open BoundsM

/-- A pair the loop continues past passes the concrete check. -/
theorem pairStep_pairOK (off bnd : KExpr) (acc acc1 : BAcc)
    (h : pairStep off bnd acc = Sum.inr acc1) : pairOKB off bnd = true := by
  unfold pairStep at h
  unfold pairOKB
  cases hb : asConstVal bnd with
  | none => rfl
  | some tb =>
    rw [hb] at h
    dsimp only at h
    cases ho : asConstVal off with
    | none => rfl
    | some so =>
      rw [ho] at h
      dsimp only at h
      by_cases h1 : 0 < tb ∧ tb ≤ so
      · rw [if_pos h1] at h
        exact Sum.noConfusion h
      · simp [h1]

/-- The early return carries the constant false expression. -/
theorem pairStep_inl_false (off bnd : KExpr) (acc : BAcc)
    (e : KExpr × List KExpr) (h : pairStep off bnd acc = Sum.inl e) :
    e.1 = falseE := by
  unfold pairStep at h
  cases hb : asConstVal bnd with
  | none =>
    rw [hb] at h
    exact Sum.noConfusion h
  | some tb =>
    rw [hb] at h
    dsimp only at h
    cases ho : asConstVal off with
    | none =>
      rw [ho] at h
      dsimp only at h
      by_cases h2 : 0 < tb
      · rw [if_pos h2] at h
        exact Sum.noConfusion h
      · rw [if_neg h2] at h
        exact Sum.noConfusion h
    | some so =>
      rw [ho] at h
      dsimp only at h
      by_cases h1 : 0 < tb ∧ tb ≤ so
      · rw [if_pos h1] at h
        have he := Sum.inl.inj h
        rw [← he]
      · rw [if_neg h1] at h
        by_cases h2 : 0 < tb
        · rw [if_pos h2] at h
          exact Sum.noConfusion h
        · rw [if_neg h2] at h
          exact Sum.noConfusion h

/-- One continuing step keeps the accumulator well formed. -/
theorem pairStep_good (off bnd : KExpr) (acc acc1 : BAcc)
    (h : pairStep off bnd acc = Sum.inr acc1)
    (hg : accTrueishB acc = true ∨ accNonConstB acc = true) :
    accTrueishB acc1 = true ∨ accNonConstB acc1 = true := by
  unfold pairStep at h
  cases hb : asConstVal bnd with
  | none =>
    rw [hb] at h
    have ha := Sum.inr.inj h
    rw [← ha]
    exact addUlt_good off bnd acc (Or.inr (ultCreate_nonconst_right off hb)) hg
  | some tb =>
    rw [hb] at h
    dsimp only at h
    cases ho : asConstVal off with
    | none =>
      rw [ho] at h
      dsimp only at h
      by_cases h2 : 0 < tb
      · rw [if_pos h2] at h
        have ha := Sum.inr.inj h
        rw [← ha]
        exact addUlt_good off bnd acc
          (Or.inr (ultCreate_nonconst_left bnd ho)) hg
      · rw [if_neg h2] at h
        have ha := Sum.inr.inj h
        rw [← ha]
        exact hg
    | some so =>
      rw [ho] at h
      dsimp only at h
      by_cases h1 : 0 < tb ∧ tb ≤ so
      · rw [if_pos h1] at h
        exact Sum.noConfusion h
      · rw [if_neg h1] at h
        by_cases h2 : 0 < tb
        · rw [if_pos h2] at h
          have ha := Sum.inr.inj h
          rw [← ha]
          have hlt : so < tb := by omega
          exact addUlt_good off bnd acc
            (Or.inl (ultCreate_true_of_lt ho hb hlt)) hg
        · rw [if_neg h2] at h
          have ha := Sum.inr.inj h
          rw [← ha]
          exact hg

/-- One continuing step keeps res non-constant. -/
theorem pairStep_nonconst_sticky (off bnd : KExpr) (acc acc1 : BAcc)
    (h : pairStep off bnd acc = Sum.inr acc1)
    (hg : accNonConstB acc = true) : accNonConstB acc1 = true := by
  unfold pairStep at h
  cases hb : asConstVal bnd with
  | none =>
    rw [hb] at h
    have ha := Sum.inr.inj h
    rw [← ha]
    exact addUlt_sticky off bnd acc
      (Or.inr (ultCreate_nonconst_right off hb)) hg
  | some tb =>
    rw [hb] at h
    dsimp only at h
    cases ho : asConstVal off with
    | none =>
      rw [ho] at h
      dsimp only at h
      by_cases h2 : 0 < tb
      · rw [if_pos h2] at h
        have ha := Sum.inr.inj h
        rw [← ha]
        exact addUlt_sticky off bnd acc
          (Or.inr (ultCreate_nonconst_left bnd ho)) hg
      · rw [if_neg h2] at h
        have ha := Sum.inr.inj h
        rw [← ha]
        exact hg
    | some so =>
      rw [ho] at h
      dsimp only at h
      by_cases h1 : 0 < tb ∧ tb ≤ so
      · rw [if_pos h1] at h
        exact Sum.noConfusion h
      · rw [if_neg h1] at h
        by_cases h2 : 0 < tb
        · rw [if_pos h2] at h
          have ha := Sum.inr.inj h
          rw [← ha]
          have hlt : so < tb := by omega
          exact addUlt_sticky off bnd acc
            (Or.inl (ultCreate_true_of_lt ho hb hlt)) hg
        · rw [if_neg h2] at h
          have ha := Sum.inr.inj h
          rw [← ha]
          exact hg

/-- A continuing step over a residual-generating pair leaves res
non-constant. -/
theorem pairStep_residual_nonconst (off bnd : KExpr) (acc acc1 : BAcc)
    (h : pairStep off bnd acc = Sum.inr acc1)
    (hres : pairResidualB off bnd = true)
    (hg : accTrueishB acc = true ∨ accNonConstB acc = true) :
    accNonConstB acc1 = true := by
  unfold pairStep at h
  unfold pairResidualB at hres
  cases hb : asConstVal bnd with
  | none =>
    rw [hb] at h
    have ha := Sum.inr.inj h
    rw [← ha]
    exact addUlt_nonconst_of_u off bnd acc (ultCreate_nonconst_right off hb) hg
  | some tb =>
    rw [hb] at h
    rw [hb] at hres
    dsimp only at h hres
    rw [Bool.and_eq_true] at hres
    have htb : 0 < tb := by
      have h0 := hres.1
      simp only [bne_iff_ne, ne_eq] at h0
      have : tb ≠ 0 := by simpa using h0
      omega
    have hoff : asConstVal off = none := by
      have h0 := hres.2
      exact Option.isNone_iff_eq_none.mp h0
    rw [hoff] at h
    dsimp only at h
    rw [if_pos htb] at h
    have ha := Sum.inr.inj h
    rw [← ha]
    exact addUlt_nonconst_of_u off bnd acc (ultCreate_nonconst_left bnd hoff) hg

end KleeTx

namespace KleeTx

open BoundsM

/-- A completed bound loop passed the concrete check on every bound. -/
theorem boundLoop_pairOK (off : KExpr) :
    ∀ (tbs : List KExpr) (acc acc1 : BAcc),
      boundLoop off tbs acc = Sum.inr acc1 →
      ∀ bnd ∈ tbs, pairOKB off bnd = true := by
  intro tbs
  induction tbs with
  | nil => intro acc acc1 _ bnd hb; exact absurd hb (by simp)
  | cons b0 rest ih =>
    intro acc acc1 h bnd hb
    unfold boundLoop at h
    cases hp : pairStep off b0 acc with
    | inl e =>
      rw [hp] at h
      exact Sum.noConfusion h
    | inr a1 =>
      rw [hp] at h
      dsimp only at h
      rcases List.mem_cons.mp hb with hbe | hbm
      · subst hbe
        exact pairStep_pairOK off bnd acc a1 hp
      · exact ih a1 acc1 h bnd hbm

/-- A completed bound loop keeps the accumulator well formed. -/
theorem boundLoop_good (off : KExpr) :
    ∀ (tbs : List KExpr) (acc acc1 : BAcc),
      boundLoop off tbs acc = Sum.inr acc1 →
      accTrueishB acc = true ∨ accNonConstB acc = true →
      accTrueishB acc1 = true ∨ accNonConstB acc1 = true := by
  intro tbs
  induction tbs with
  | nil =>
    intro acc acc1 h hg
    have ha := Sum.inr.inj h
    rw [← ha]
    exact hg
  | cons b0 rest ih =>
    intro acc acc1 h hg
    unfold boundLoop at h
    cases hp : pairStep off b0 acc with
    | inl e =>
      rw [hp] at h
      exact Sum.noConfusion h
    | inr a1 =>
      rw [hp] at h
      dsimp only at h
      exact ih a1 acc1 h (pairStep_good off b0 acc a1 hp hg)

/-- A completed bound loop keeps res non-constant. -/
theorem boundLoop_sticky (off : KExpr) :
    ∀ (tbs : List KExpr) (acc acc1 : BAcc),
      boundLoop off tbs acc = Sum.inr acc1 →
      accNonConstB acc = true → accNonConstB acc1 = true := by
  intro tbs
  induction tbs with
  | nil =>
    intro acc acc1 h hg
    have ha := Sum.inr.inj h
    rw [← ha]
    exact hg
  | cons b0 rest ih =>
    intro acc acc1 h hg
    unfold boundLoop at h
    cases hp : pairStep off b0 acc with
    | inl e =>
      rw [hp] at h
      exact Sum.noConfusion h
    | inr a1 =>
      rw [hp] at h
      dsimp only at h
      exact ih a1 acc1 h (pairStep_nonconst_sticky off b0 acc a1 hp hg)

/-- A completed bound loop over a residual-generating bound leaves res
non-constant. -/
theorem boundLoop_residual (off : KExpr) :
    ∀ (tbs : List KExpr) (acc acc1 : BAcc),
      boundLoop off tbs acc = Sum.inr acc1 →
      accTrueishB acc = true ∨ accNonConstB acc = true →
      (∃ bnd ∈ tbs, pairResidualB off bnd = true) →
      accNonConstB acc1 = true := by
  intro tbs
  induction tbs with
  | nil =>
    intro acc acc1 _ _ hex
    obtain ⟨bnd, hb, _⟩ := hex
    exact absurd hb (by simp)
  | cons b0 rest ih =>
    intro acc acc1 h hg hex
    unfold boundLoop at h
    cases hp : pairStep off b0 acc with
    | inl e =>
      rw [hp] at h
      exact Sum.noConfusion h
    | inr a1 =>
      rw [hp] at h
      dsimp only at h
      obtain ⟨bnd, hb, hbres⟩ := hex
      rcases List.mem_cons.mp hb with hbe | hbm
      · subst hbe
        exact boundLoop_sticky off rest a1 acc1 h
          (pairStep_residual_nonconst off bnd acc a1 hp hbres hg)
      · exact ih a1 acc1 h (pairStep_good off b0 acc a1 hp hg) ⟨bnd, hbm, hbres⟩

/-- An early return out of the bound loop carries constant false. -/
theorem boundLoop_inl_false (off : KExpr) :
    ∀ (tbs : List KExpr) (acc : BAcc) (e : KExpr × List KExpr),
      boundLoop off tbs acc = Sum.inl e → e.1 = falseE := by
  intro tbs
  induction tbs with
  | nil =>
    intro acc e h
    exact Sum.noConfusion h
  | cons b0 rest ih =>
    intro acc e h
    unfold boundLoop at h
    cases hp : pairStep off b0 acc with
    | inl e0 =>
      rw [hp] at h
      dsimp only at h
      have he := Sum.inl.inj h
      rw [← he]
      exact pairStep_inl_false off b0 acc e0 hp
    | inr a1 =>
      rw [hp] at h
      dsimp only at h
      exact ih a1 e h

/-- A completed offset loop passed the concrete check on every pair. -/
theorem offsetLoop_pairOK (tbs : List KExpr) :
    ∀ (offs : List KExpr) (acc acc1 : BAcc),
      offsetLoop tbs offs acc = Sum.inr acc1 →
      ∀ off ∈ offs, ∀ bnd ∈ tbs, pairOKB off bnd = true := by
  intro offs
  induction offs with
  | nil => intro acc acc1 _ off ho; exact absurd ho (by simp)
  | cons o0 rest ih =>
    intro acc acc1 h off ho
    unfold offsetLoop at h
    cases hb : boundLoop o0 tbs acc with
    | inl e =>
      rw [hb] at h
      exact Sum.noConfusion h
    | inr a1 =>
      rw [hb] at h
      dsimp only at h
      rcases List.mem_cons.mp ho with hoe | hom
      · subst hoe
        exact boundLoop_pairOK off tbs acc a1 hb
      · exact ih a1 acc1 h off hom

/-- A completed offset loop keeps the accumulator well formed. -/
theorem offsetLoop_good (tbs : List KExpr) :
    ∀ (offs : List KExpr) (acc acc1 : BAcc),
      offsetLoop tbs offs acc = Sum.inr acc1 →
      accTrueishB acc = true ∨ accNonConstB acc = true →
      accTrueishB acc1 = true ∨ accNonConstB acc1 = true := by
  intro offs
  induction offs with
  | nil =>
    intro acc acc1 h hg
    have ha := Sum.inr.inj h
    rw [← ha]
    exact hg
  | cons o0 rest ih =>
    intro acc acc1 h hg
    unfold offsetLoop at h
    cases hb : boundLoop o0 tbs acc with
    | inl e =>
      rw [hb] at h
      exact Sum.noConfusion h
    | inr a1 =>
      rw [hb] at h
      dsimp only at h
      exact ih a1 acc1 h (boundLoop_good o0 tbs acc a1 hb hg)

/-- A completed offset loop keeps res non-constant. -/
theorem offsetLoop_sticky (tbs : List KExpr) :
    ∀ (offs : List KExpr) (acc acc1 : BAcc),
      offsetLoop tbs offs acc = Sum.inr acc1 →
      accNonConstB acc = true → accNonConstB acc1 = true := by
  intro offs
  induction offs with
  | nil =>
    intro acc acc1 h hg
    have ha := Sum.inr.inj h
    rw [← ha]
    exact hg
  | cons o0 rest ih =>
    intro acc acc1 h hg
    unfold offsetLoop at h
    cases hb : boundLoop o0 tbs acc with
    | inl e =>
      rw [hb] at h
      exact Sum.noConfusion h
    | inr a1 =>
      rw [hb] at h
      dsimp only at h
      exact ih a1 acc1 h (boundLoop_sticky o0 tbs acc a1 hb hg)

/-- A completed offset loop over a residual-generating pair leaves res
non-constant. -/
theorem offsetLoop_residual (tbs : List KExpr) :
    ∀ (offs : List KExpr) (acc acc1 : BAcc),
      offsetLoop tbs offs acc = Sum.inr acc1 →
      accTrueishB acc = true ∨ accNonConstB acc = true →
      (∃ off ∈ offs, ∃ bnd ∈ tbs, pairResidualB off bnd = true) →
      accNonConstB acc1 = true := by
  intro offs
  induction offs with
  | nil =>
    intro acc acc1 _ _ hex
    obtain ⟨off, ho, _⟩ := hex
    exact absurd ho (by simp)
  | cons o0 rest ih =>
    intro acc acc1 h hg hex
    unfold offsetLoop at h
    cases hb : boundLoop o0 tbs acc with
    | inl e =>
      rw [hb] at h
      exact Sum.noConfusion h
    | inr a1 =>
      rw [hb] at h
      dsimp only at h
      obtain ⟨off, ho, hbnd⟩ := hex
      rcases List.mem_cons.mp ho with hoe | hom
      · subst hoe
        exact offsetLoop_sticky tbs rest a1 acc1 h
          (boundLoop_residual off tbs acc a1 hb hg hbnd)
      · exact ih a1 acc1 h (boundLoop_good o0 tbs acc a1 hb hg)
          ⟨off, hom, hbnd⟩

/-- An early return out of the offset loop carries constant false. -/
theorem offsetLoop_inl_false (tbs : List KExpr) :
    ∀ (offs : List KExpr) (acc : BAcc) (e : KExpr × List KExpr),
      offsetLoop tbs offs acc = Sum.inl e → e.1 = falseE := by
  intro offs
  induction offs with
  | nil =>
    intro acc e h
    exact Sum.noConfusion h
  | cons o0 rest ih =>
    intro acc e h
    unfold offsetLoop at h
    cases hb : boundLoop o0 tbs acc with
    | inl e0 =>
      rw [hb] at h
      dsimp only at h
      have he := Sum.inl.inj h
      rw [← he]
      exact boundLoop_inl_false o0 tbs acc e0 hb
    | inr a1 =>
      rw [hb] at h
      dsimp only at h
      exact ih a1 e h

end KleeTx

namespace KleeTx

open BoundsM

/-- A run over sites with no match leaves state and accumulator
untouched. -/
theorem siteLoop_no_match (so : List (Nat × List KExpr)) :
    ∀ (ab : List (Nat × List KExpr)) (mf : Bool) (acc : BAcc),
      (∀ p ∈ ab, alistGet so p.1 = none) →
      siteLoop so ab mf acc = some (Sum.inr (mf, acc)) := by
  intro ab
  induction ab with
  | nil => intro mf acc _; rfl
  | cons p rest ih =>
    intro mf acc hnone
    obtain ⟨site, tbs⟩ := p
    unfold siteLoop
    rw [hnone (site, tbs) (List.mem_cons_self _ _)]
    exact ih mf acc (fun q hq => hnone q (List.mem_cons_of_mem _ hq))

/-- An early return out of the site loop carries constant false. -/
theorem siteLoop_inl_false (so : List (Nat × List KExpr)) :
    ∀ (ab : List (Nat × List KExpr)) (mf : Bool) (acc : BAcc)
      (e : KExpr × List KExpr),
      siteLoop so ab mf acc = some (Sum.inl e) → e.1 = falseE := by
  intro ab
  induction ab with
  | nil =>
    intro mf acc e h
    exact Sum.noConfusion (Option.some.inj h)
  | cons p rest ih =>
    intro mf acc e h
    obtain ⟨site, tbs⟩ := p
    unfold siteLoop at h
    cases hm : alistGet so site with
    | none =>
      rw [hm] at h
      exact ih mf acc e h
    | some offs =>
      rw [hm] at h
      dsimp only at h
      by_cases he1 : tbs.isEmpty
      · rw [if_pos he1] at h
        exact Option.noConfusion h
      · rw [if_neg he1] at h
        by_cases he2 : offs.isEmpty
        · rw [if_pos he2] at h
          have he := Sum.inl.inj (Option.some.inj h)
          rw [← he]
        · rw [if_neg he2] at h
          cases hol : offsetLoop tbs offs acc with
          | inl e0 =>
            rw [hol] at h
            dsimp only at h
            have he := Sum.inl.inj (Option.some.inj h)
            rw [← he]
            exact offsetLoop_inl_false tbs offs acc e0 hol
          | inr a1 =>
            rw [hol] at h
            dsimp only at h
            exact ih true a1 e h

/-- A completed site loop passed the concrete check on every matched
site. -/
theorem siteLoop_concreteOK (so : List (Nat × List KExpr)) :
    ∀ (ab : List (Nat × List KExpr)) (mf : Bool) (acc : BAcc)
      (mf1 : Bool) (acc1 : BAcc),
      siteLoop so ab mf acc = some (Sum.inr (mf1, acc1)) →
      concreteOKB ab so = true := by
  intro ab
  induction ab with
  | nil => intro mf acc mf1 acc1 _; rfl
  | cons p rest ih =>
    intro mf acc mf1 acc1 h
    obtain ⟨site, tbs⟩ := p
    unfold siteLoop at h
    unfold concreteOKB
    rw [List.all_cons, Bool.and_eq_true]
    cases hm : alistGet so site with
    | none =>
      rw [hm] at h
      refine ⟨?_, ih mf acc mf1 acc1 h⟩
      dsimp only
    | some offs =>
      rw [hm] at h
      dsimp only at h
      by_cases he1 : tbs.isEmpty
      · rw [if_pos he1] at h
        exact Option.noConfusion h
      · rw [if_neg he1] at h
        by_cases he2 : offs.isEmpty
        · rw [if_pos he2] at h
          exact Sum.noConfusion (Option.some.inj h)
        · rw [if_neg he2] at h
          cases hol : offsetLoop tbs offs acc with
          | inl e0 =>
            rw [hol] at h
            dsimp only at h
            exact Sum.noConfusion (Option.some.inj h)
          | inr a1 =>
            rw [hol] at h
            dsimp only at h
            refine ⟨?_, ih true a1 mf1 acc1 h⟩
            dsimp only
            rw [List.all_eq_true]
            intro off hoff
            rw [List.all_eq_true]
            intro bnd hbnd
            exact offsetLoop_pairOK tbs offs acc a1 hol off hoff bnd hbnd

end KleeTx

namespace KleeTx

open BoundsM

/-- A completed site loop keeps res non-constant. -/
theorem siteLoop_sticky (so : List (Nat × List KExpr)) :
    ∀ (ab : List (Nat × List KExpr)) (mf : Bool) (acc : BAcc)
      (mf1 : Bool) (acc1 : BAcc),
      siteLoop so ab mf acc = some (Sum.inr (mf1, acc1)) →
      accNonConstB acc = true → accNonConstB acc1 = true := by
  intro ab
  induction ab with
  | nil =>
    intro mf acc mf1 acc1 h hg
    have hp := Sum.inr.inj (Option.some.inj h)
    have hacc : acc = acc1 := congrArg Prod.snd hp
    rw [← hacc]
    exact hg
  | cons p rest ih =>
    intro mf acc mf1 acc1 h hg
    obtain ⟨site, tbs⟩ := p
    unfold siteLoop at h
    cases hm : alistGet so site with
    | none =>
      rw [hm] at h
      exact ih mf acc mf1 acc1 h hg
    | some offs =>
      rw [hm] at h
      dsimp only at h
      by_cases he1 : tbs.isEmpty
      · rw [if_pos he1] at h
        exact Option.noConfusion h
      · rw [if_neg he1] at h
        by_cases he2 : offs.isEmpty
        · rw [if_pos he2] at h
          exact Sum.noConfusion (Option.some.inj h)
        · rw [if_neg he2] at h
          cases hol : offsetLoop tbs offs acc with
          | inl e0 =>
            rw [hol] at h
            dsimp only at h
            exact Sum.noConfusion (Option.some.inj h)
          | inr a1 =>
            rw [hol] at h
            dsimp only at h
            exact ih true a1 mf1 acc1 h
              (offsetLoop_sticky tbs offs acc a1 hol hg)

/-- A completed site loop keeps the accumulator well formed. -/
theorem siteLoop_good (so : List (Nat × List KExpr)) :
    ∀ (ab : List (Nat × List KExpr)) (mf : Bool) (acc : BAcc)
      (mf1 : Bool) (acc1 : BAcc),
      siteLoop so ab mf acc = some (Sum.inr (mf1, acc1)) →
      accTrueishB acc = true ∨ accNonConstB acc = true →
      accTrueishB acc1 = true ∨ accNonConstB acc1 = true := by
  intro ab
  induction ab with
  | nil =>
    intro mf acc mf1 acc1 h hg
    have hp := Sum.inr.inj (Option.some.inj h)
    have hacc : acc = acc1 := congrArg Prod.snd hp
    rw [← hacc]
    exact hg
  | cons p rest ih =>
    intro mf acc mf1 acc1 h hg
    obtain ⟨site, tbs⟩ := p
    unfold siteLoop at h
    cases hm : alistGet so site with
    | none =>
      rw [hm] at h
      exact ih mf acc mf1 acc1 h hg
    | some offs =>
      rw [hm] at h
      dsimp only at h
      by_cases he1 : tbs.isEmpty
      · rw [if_pos he1] at h
        exact Option.noConfusion h
      · rw [if_neg he1] at h
        by_cases he2 : offs.isEmpty
        · rw [if_pos he2] at h
          exact Sum.noConfusion (Option.some.inj h)
        · rw [if_neg he2] at h
          cases hol : offsetLoop tbs offs acc with
          | inl e0 =>
            rw [hol] at h
            dsimp only at h
            exact Sum.noConfusion (Option.some.inj h)
          | inr a1 =>
            rw [hol] at h
            dsimp only at h
            exact ih true a1 mf1 acc1 h
              (offsetLoop_good tbs offs acc a1 hol hg)

/-- A completed site loop that fails the residual-freedom test leaves res
non-constant. -/
theorem siteLoop_residual (so : List (Nat × List KExpr)) :
    ∀ (ab : List (Nat × List KExpr)) (mf : Bool) (acc : BAcc)
      (mf1 : Bool) (acc1 : BAcc),
      siteLoop so ab mf acc = some (Sum.inr (mf1, acc1)) →
      accTrueishB acc = true ∨ accNonConstB acc = true →
      residualFreeB ab so = false →
      accNonConstB acc1 = true := by
  intro ab
  induction ab with
  | nil =>
    intro mf acc mf1 acc1 _ _ hrf
    exact absurd hrf (by simp [residualFreeB])
  | cons p rest ih =>
    intro mf acc mf1 acc1 h hg hrf
    obtain ⟨site, tbs⟩ := p
    unfold residualFreeB at hrf
    rw [List.all_cons] at hrf
    dsimp only at hrf
    unfold siteLoop at h
    cases hm : alistGet so site with
    | none =>
      rw [hm] at h
      rw [hm] at hrf
      dsimp only at hrf
      rw [Bool.true_and] at hrf
      exact ih mf acc mf1 acc1 h hg hrf
    | some offs =>
      rw [hm] at h
      rw [hm] at hrf
      dsimp only at h hrf
      by_cases he1 : tbs.isEmpty
      · rw [if_pos he1] at h
        exact Option.noConfusion h
      · rw [if_neg he1] at h
        by_cases he2 : offs.isEmpty
        · rw [if_pos he2] at h
          exact Sum.noConfusion (Option.some.inj h)
        · rw [if_neg he2] at h
          cases hol : offsetLoop tbs offs acc with
          | inl e0 =>
            rw [hol] at h
            dsimp only at h
            exact Sum.noConfusion (Option.some.inj h)
          | inr a1 =>
            rw [hol] at h
            dsimp only at h
            by_cases hhead : (tbs.all fun bnd =>
                match asConstVal bnd with
                | some tb => tb == 0 ||
                    offs.all (fun off => (asConstVal off).isSome)
                | none => false) = true
            · rw [hhead, Bool.true_and] at hrf
              exact ih true a1 mf1 acc1 h
                (offsetLoop_good tbs offs acc a1 hol hg) hrf
            · have hhead2 := Bool.eq_false_iff.mpr hhead
              rw [List.all_eq_false] at hhead2
              obtain ⟨bnd, hbnd, hinner⟩ := hhead2
              have hinner2 := Bool.eq_false_iff.mpr hinner
              have hex : ∃ off ∈ offs, ∃ b ∈ tbs,
                  pairResidualB off b = true := by
                cases hb : asConstVal bnd with
                | none =>
                  cases offs with
                  | nil => exact absurd rfl he2
                  | cons o0 os =>
                    refine ⟨o0, List.mem_cons_self _ _, bnd, hbnd, ?_⟩
                    unfold pairResidualB
                    rw [hb]
                | some tb =>
                  rw [hb] at hinner2
                  dsimp only at hinner2
                  rw [Bool.or_eq_false_iff] at hinner2
                  obtain ⟨htb0, hoffs⟩ := hinner2
                  rw [List.all_eq_false] at hoffs
                  obtain ⟨off, hoffm, hoffsym⟩ := hoffs
                  refine ⟨off, hoffm, bnd, hbnd, ?_⟩
                  unfold pairResidualB
                  rw [hb]
                  dsimp only
                  rw [htb0]
                  have hnone : asConstVal off = none := by
                    cases hoc : asConstVal off
                    · rfl
                    · rw [hoc] at hoffsym
                      simp at hoffsym
                  rw [hnone]
                  rfl
              exact siteLoop_sticky so rest true a1 mf1 acc1 h
                (offsetLoop_residual tbs offs acc a1 hol hg hex)

end KleeTx

namespace KleeTx

open BoundsM

/-- When no entry site occurs in the state map, every lookup misses. -/
theorem anyMatchB_false_all_none (ab so : List (Nat × List KExpr))
    (h : anyMatchB ab so = false) : ∀ p ∈ ab, alistGet so p.1 = none := by
  unfold anyMatchB at h
  rw [List.any_eq_false] at h
  intro p hp
  have h2 := h p hp
  cases hm : alistGet so p.1 with
  | none => rfl
  | some v =>
    rw [hm] at h2
    simp at h2

/-- C10: StoredValue::getBoundsCheck returns the constant false
expression when none of the entry's recorded allocation sites occurs in
the state value's allocation-offsets map, so subsumption via bounds fails
rather than trivially succeeding for unrelated allocations; and it
returns constant true only when at least one site matched, every
concrete state offset was strictly below every concrete non-zero tabled
bound, and no residual (non-constant) bound constraint was generated. -/
theorem getBoundsCheck_no_match_false_true_only_matched
    (ab so : List (Nat × List KExpr)) :
    (anyMatchB ab so = false → getBoundsCheck ab so = some (falseE, [])) ∧
    (∀ bnds, getBoundsCheck ab so = some (trueE, bnds) →
      anyMatchB ab so = true ∧ concreteOKB ab so = true ∧
      residualFreeB ab so = true) := by
  constructor
  · intro hnm
    unfold getBoundsCheck
    rw [siteLoop_no_match so ab false (none, [])
      (anyMatchB_false_all_none ab so hnm)]
    rfl
  · intro bnds h
    unfold getBoundsCheck at h
    cases hs : siteLoop so ab false (none, []) with
    | none =>
      rw [hs] at h
      exact Option.noConfusion h
    | some v =>
      cases v with
      | inl ea =>
        rw [hs] at h
        dsimp only at h
        have hfe : ea.1 = falseE :=
          siteLoop_inl_false so ab false (none, []) ea hs
        have hea := Option.some.inj h
        rw [hea] at hfe
        exact absurd hfe (by simp [trueE, falseE])
      | inr mfacc =>
        obtain ⟨mf, acc⟩ := mfacc
        obtain ⟨a1, a2⟩ := acc
        rw [hs] at h
        dsimp only at h
        refine ⟨?_, siteLoop_concreteOK so ab false (none, []) mf (a1, a2) hs,
          ?_⟩
        · by_contra hnm
          have hnm2 := Bool.eq_false_iff.mpr hnm
          have hid := siteLoop_no_match so ab false (none, [])
            (anyMatchB_false_all_none ab so hnm2)
          have hcomb := hid.symm.trans hs
          have hp := Sum.inr.inj (Option.some.inj hcomb)
          have hmf2 : (false : Bool) = mf := congrArg Prod.fst hp
          have hacc2 := congrArg Prod.snd hp
          have ha1 : (none : Option KExpr) = a1 := congrArg Prod.fst hacc2
          rw [← ha1, ← hmf2] at h
          dsimp only at h
          have hfe := congrArg Prod.fst (Option.some.inj h)
          simp [trueE, falseE] at hfe
        · by_contra hrf
          have hrf2 := Bool.eq_false_iff.mpr hrf
          have hnc := siteLoop_residual so ab false (none, []) mf (a1, a2) hs
            (Or.inl rfl) hrf2
          cases a1 with
          | none =>
            unfold accNonConstB at hnc
            dsimp only at hnc
            exact absurd hnc (by simp)
          | some r =>
            dsimp only at h
            have hr : r = trueE := congrArg Prod.fst (Option.some.inj h)
            unfold accNonConstB at hnc
            dsimp only at hnc
            rw [hr] at hnc
            simp [trueE, isConstantExpr] at hnc

/-- Witness for getBoundsCheck_no_match_false_true_only_matched: a
tabled bound for site 1 against a state with no offsets gives constant
false; against a state offset 3 below bound 8 the three conditions
hold. -/
theorem getBoundsCheck_no_match_false_true_only_matched_witness :
    getBoundsCheck [(1, [KExpr.intConst 8])] [] = some (falseE, []) ∧
    (anyMatchB [(1, [KExpr.intConst 8])] [(1, [KExpr.intConst 3])] = true ∧
      concreteOKB [(1, [KExpr.intConst 8])] [(1, [KExpr.intConst 3])] = true ∧
      residualFreeB [(1, [KExpr.intConst 8])]
        [(1, [KExpr.intConst 3])] = true) :=
  ⟨(getBoundsCheck_no_match_false_true_only_matched
      [(1, [KExpr.intConst 8])] []).1 (by decide),
   (getBoundsCheck_no_match_false_true_only_matched
      [(1, [KExpr.intConst 8])] [(1, [KExpr.intConst 3])]).2
     [KExpr.intConst 8] (by decide)⟩

end KleeTx
